import Mathlib

/-!
Verification development for the bibnumber text-detection core
(src/bibnumber/textdetection.cpp).

The C++ code is shallowly embedded: pure numeric code over `float` is
modelled over `ℚ` (exact arithmetic in place of floating point; every
constant of the source, such as `3.0`, `1.6`, `1./36.`, is carried over
exactly), pixel coordinates over `ℕ`/`ℤ`, and C++ vectors over `List`.
Stateful loops become explicit folds that thread the mutated state.
External collaborators (the OpenCV gradient/edge primitives, the
transcendental math-library calls `cos`/`sin`/`atan2`, boost's
`connected_components` labelling, and the Tesseract OCR engine) are
parameters of the corresponding definitions, exactly at the boundaries
where the source calls them.
-/

/-! ### Basic helpers from textdetection.cpp -/

/-- `static inline int square(int x) { return x * x; }` (textdetection.cpp:53). -/
def square (x : ℤ) : ℤ := x * x

/-- `ratio_within(float ratio, float max_ratio)` (textdetection.cpp:57):
`(ratio < max_ratio) && (ratio > 1 / max_ratio)`. -/
def ratio_within (ratio max_r : ℚ) : Bool :=
  decide (ratio < max_r) && decide (1 / max_r < ratio)

/-- C++ `float`→`int` conversion truncates toward zero; used where the source
passes a `float` to `square(int)` (the seed-pair distance in `makeChains`). -/
def qtrunc (q : ℚ) : ℤ := if 0 ≤ q then ⌊q⌋ else ⌈q⌉

/-! ### The SWT map and the component graph (textdetection.cpp:748-838)

The SWT image is a `height × width` grid of `float`s; we model it as a
function `ℕ → ℕ → ℚ` taking row and column.  `findLegallyConnectedComponents`
scans pixels in row-major order, numbers those with positive value as graph
vertices, adds edges to the right / right-down / down / left-down neighbors
under the test on source lines 781-812, and buckets vertices by the label
that boost's `connected_components` assigns. -/

/-- The per-neighbor edge test of `findLegallyConnectedComponents`
(textdetection.cpp:781-782 and the three analogous blocks):
`right > 0 && ((*ptr) / right <= 3.0 || right / (*ptr) <= 3.0)`,
with `a` the current pixel's value and `b` the neighbor's. -/
def edgeCond (a b : ℚ) : Bool :=
  decide (0 < b) && (decide (a / b ≤ 3) || decide (b / a ≤ 3))

/-- The list of edges added by the vertex-scan loop of
`findLegallyConnectedComponents` (textdetection.cpp:773-818), as ordered
pairs (current pixel, neighbor), pixels written `(row, col)`.  The outer
guard `*ptr > 0` and the bounds checks `col + 1 < width`, `row + 1 < height`,
`col - 1 >= 0` are as in the source, in source order
(right, right-down, down, left-down). -/
def buildEdges (h w : ℕ) (m : ℕ → ℕ → ℚ) : List ((ℕ × ℕ) × (ℕ × ℕ)) :=
  (List.range h).flatMap fun row =>
    (List.range w).flatMap fun col =>
      if 0 < m row col then
        (if decide (col + 1 < w) && edgeCond (m row col) (m row (col + 1)) then
          [((row, col), (row, col + 1))] else [])
        ++ (if decide (row + 1 < h) && decide (col + 1 < w)
              && edgeCond (m row col) (m (row + 1) (col + 1)) then
          [((row, col), (row + 1, col + 1))] else [])
        ++ (if decide (row + 1 < h) && edgeCond (m row col) (m (row + 1) col) then
          [((row, col), (row + 1, col))] else [])
        ++ (if decide (row + 1 < h) && decide (1 ≤ col)
              && edgeCond (m row col) (m (row + 1) (col - 1)) then
          [((row, col), (row + 1, col - 1))] else [])
      else []

/-- The edge set as the specification describes it once the vacuous ratio
disjunction is taken into account (the amended form of claim C1): an edge
from `(r, c)` to each in-bounds right / right-down / down / left-down
neighbor exactly when both pixels have positive SWT values. -/
def edgeSpec (h w : ℕ) (m : ℕ → ℕ → ℚ) (e : (ℕ × ℕ) × (ℕ × ℕ)) : Prop :=
  ∃ r c, e.1 = (r, c) ∧ r < h ∧ c < w ∧ 0 < m r c ∧ 0 < m e.2.1 e.2.2 ∧
    ((e.2 = (r, c + 1) ∧ c + 1 < w)
     ∨ (e.2 = (r + 1, c + 1) ∧ r + 1 < h ∧ c + 1 < w)
     ∨ (e.2 = (r + 1, c) ∧ r + 1 < h)
     ∨ (∃ c', c = c' + 1 ∧ e.2 = (r + 1, c') ∧ r + 1 < h))

/-- The vertex list of `findLegallyConnectedComponents`
(textdetection.cpp:756-769): pixels with positive SWT value, in row-major
scan order.  Vertex number `j` is the `j`-th entry (the source's `map` /
`revmap` hash maps translate between the two). -/
def vertexList (h w : ℕ) (m : ℕ → ℕ → ℚ) : List (ℕ × ℕ) :=
  (List.range h).flatMap fun row =>
    ((List.range w).filter fun col => decide (0 < m row col)).map fun col => (row, col)

/-- The component buckets built on textdetection.cpp:828-835:
`components[c[j]].push_back(revmap[j])` for `j = 0, …, num_vertices - 1`.
The labelling `lab` (the source's `c`, produced by boost's
`connected_components`, an external collaborator) and the number of
components `nc` (its return value) are parameters; boost guarantees that
every vertex receives a label below `nc`. -/
def componentBuckets (h w : ℕ) (m : ℕ → ℕ → ℚ) (lab : ℕ → ℕ) (nc : ℕ) :
    List (List (ℕ × ℕ)) :=
  (List.range nc).map fun k =>
    (((vertexList h w m).enum.filter fun jp => decide (lab jp.1 = k)).map fun jp => jp.2)

/-! ### Ray transform map update and the median filter
(textdetection.cpp:684-714 and 726-742)

A `Ray` stores the traversed pixel path (`r.points`) and the source writes
the Euclidean length `sqrt(…)` of the accepted ray into the map along that
path.  Which rays are accepted — the gradient walk, the opposing-gradient
`acos` test, and the `maxStrokeLength` cut — is geometry computed with
math-library calls on floats; the accepted rays (path plus length) are
therefore a parameter here, with the one fact the update rule needs —
lengths are Euclidean norms, hence nonnegative — as a hypothesis of the
theorems.  The map update and the median filter are embedded exactly. -/

structure RayM where
  pts : List (ℕ × ℕ)
  len : ℚ

/-- One pixel write of the acceptance loop (textdetection.cpp:700-710):
set to the ray length if the map value is negative (unset), else to the
minimum of the current value and the ray length. -/
def swtWrite (len : ℚ) (m : (ℕ × ℕ) → ℚ) (p : ℕ × ℕ) : (ℕ × ℕ) → ℚ :=
  fun q => if q = p then (if m p < 0 then len else min (m p) len) else m q

/-- The write loop over one accepted ray's path (textdetection.cpp:697-711). -/
def swtApplyRay (m : (ℕ × ℕ) → ℚ) (r : RayM) : (ℕ × ℕ) → ℚ :=
  r.pts.foldl (swtWrite r.len) m

/-- The whole map-writing part of `strokeWidthTransform`: the accepted rays,
in discovery order, each write their length along their path. -/
def strokeWidthTransform (rays : List RayM) (m : (ℕ × ℕ) → ℚ) : (ℕ × ℕ) → ℚ :=
  rays.foldl swtApplyRay m

/-- The median of one ray's current map values, as `SWTMedianFilter`
computes it (textdetection.cpp:729-734): read the value at every path
pixel, sort, take the entry at index `size / 2`.  (`std::sort` with
`Point2dSort`, which compares the read values; the value at a fixed index
of a sorted list does not depend on how ties are broken.) -/
def rayMedian (m : (ℕ × ℕ) → ℚ) (r : RayM) : ℚ :=
  let vals := List.insertionSort (fun a b : ℚ => a ≤ b) (r.pts.map fun p => m p)
  vals.getD (vals.length / 2) 0

/-- One ray's pass of `SWTMedianFilter` (textdetection.cpp:729-739): every
path pixel's value is replaced by `min` of its read value and the ray's
median.  All reads happen before the writes, so the stored `pit->SWT` is
the value of `m` before this ray's pass. -/
def medianApplyRay (m : (ℕ × ℕ) → ℚ) (r : RayM) : (ℕ × ℕ) → ℚ :=
  let med := rayMedian m r
  r.pts.foldl (fun m' p => fun q => if q = p then min (m p) med else m' q) m

/-- `SWTMedianFilter` (textdetection.cpp:726-742): each accepted ray, in
order, clamps its path pixels to its median. -/
def SWTMedianFilter (m : (ℕ × ℕ) → ℚ) (rays : List RayM) : (ℕ × ℕ) → ℚ :=
  rays.foldl medianApplyRay m

/-! ### OCR text acceptance (textdetection.cpp:61-66 and 430-452)

Strings are modelled as `List Char`.  `std::isdigit` / the classification
used by `boost::algorithm::trim` are the "C" locale classifications on the
ASCII range the code feeds them. -/

/-- `std::isdigit` on the characters of interest: a decimal digit. -/
def isdigitC (c : Char) : Bool := decide ('0' ≤ c) && decide (c ≤ '9')

/-- `std::isspace` ("C" locale): space, tab, newline, vertical tab, form
feed, carriage return — the characters `boost::algorithm::trim` strips. -/
def isspaceC (c : Char) : Bool :=
  decide (c = ' ') || decide (c = '\t') || decide (c = '\n')
    || decide (c = Char.ofNat 11) || decide (c = Char.ofNat 12) || decide (c = '\r')

/-- The scanning loop of `is_number` (textdetection.cpp:62-64): advance the
iterator while it points at a digit; returns the rest of the string. -/
def digitScan : List Char → List Char
  | [] => []
  | c :: t => if isdigitC c then digitScan t else c :: t

/-- `is_number` (textdetection.cpp:61-66): `!s.empty() && it == s.end()`
after the digit scan. -/
def is_number (s : List Char) : Bool := !s.isEmpty && (digitScan s).isEmpty

/-- `boost::algorithm::trim`: drop classified-space characters from both
ends of the string. -/
def trimBoth (s : List Char) : List Char :=
  ((s.dropWhile isspaceC).reverse.dropWhile isspaceC).reverse

/-- The OCR-result acceptance block of `renderChainsWithBoxes`
(textdetection.cpp:432-452): given the raw string `out` returned by
Tesseract and the chain's component count `n`, the chain contributes
`some` trimmed text iff `strlen(out) != 0`, the trimmed string's size
equals `n`, and `is_number` holds of the trimmed string; each `break` of
the `do { … } while (0)` block is a `none`. -/
def acceptText (out : List Char) (n : ℕ) : Option (List Char) :=
  if out.length = 0 then none
  else
    let s := trimBoth out
    if s.length ≠ n then none
    else if !is_number s then none
    else some s

/-! ### Per-chain geometric gates of `renderChainsWithBoxes`
(textdetection.cpp:309-452)

A component's axis-aligned bounding box (`compBB` entry) is a pair
(first, second) of integer points, each written `(x, y)`. -/

/-- A bounding box: (first, second) corner points, each `(x, y)`. -/
abbrev BBox := (ℤ × ℤ) × (ℤ × ℤ)

/-- `findBoundingBoxes(chains, compBB, output)` (textdetection.cpp:72-96)
for one chain: fold min/max of the member components' `compBB` corners,
starting from `minx = output->width`, `miny = output->height`,
`maxx = maxy = 0`. -/
def chainBB (imgW imgH : ℤ) (bbs : ℕ → BBox) (comps : List ℕ) : BBox :=
  comps.foldl
    (fun acc c =>
      ((min acc.1.1 (bbs c).1.1, min acc.1.2 (bbs c).1.2),
       (max acc.2.1 (bbs c).2.1, max acc.2.2 (bbs c).2.2)))
    ((imgW, imgH), (0, 0))

/-- The `minHeight` computation of `renderChainsWithBoxes`
(textdetection.cpp:322-327): start from the chain box's vertical extent and
take `min` with every member component's `compBB` vertical extent
`second.y - first.y`. -/
def chainMinHeight (imgW imgH : ℤ) (bbs : ℕ → BBox) (comps : List ℕ) : ℤ :=
  let bb := chainBB imgW imgH bbs comps
  comps.foldl (fun acc c => min acc ((bbs c).2.2 - (bbs c).1.2)) (bb.2.2 - bb.1.2)

/-- The per-chain body of the loop in `renderChainsWithBoxes`
(textdetection.cpp:309-452), as the text (if any) the chain contributes:
`continue` on the width test (line 314), on the minimum-height test
(line 328), on the angle test (line 343, `atan2` on floats — outcome
abstracted as the parameter `angleOk`), and on an empty clipped ROI
(line 403, parameter `roiOk`); otherwise the patch goes to Tesseract
(whose raw output is the parameter `ocrOut`) and `acceptText` decides. -/
def processChain (imgW imgH : ℤ) (maxImgWidthToTextRatio : ℚ) (minCharacterheight : ℤ)
    (bbs : ℕ → BBox) (comps : List ℕ) (angleOk roiOk : Bool) (ocrOut : List Char) :
    Option (List Char) :=
  let bb := chainBB imgW imgH bbs comps
  if ((bb.2.1 - bb.1.1 : ℤ) : ℚ) < (imgW : ℚ) / maxImgWidthToTextRatio then none
  else if chainMinHeight imgW imgH bbs comps < minCharacterheight then none
  else if !angleOk then none
  else if !roiOk then none
  else acceptText ocrOut comps.length

/-! ### The containment filter of `filterComponents`
(textdetection.cpp:1004-1028)

The first-pass survivors are indexed `0, …, n-1`; their bounding boxes and
center points are the parallel vectors `compBB` and `compCenters`, modelled
as functions of the index.  Centers are floats (`(maxx + minx) / 2.0`),
boxes integer points. -/

/-- The center-in-box test of textdetection.cpp:1008-1011 (inclusive on all
four sides; the `int` corners are promoted to `float` for the comparison). -/
def centerInBB (bb : BBox) (c : ℚ × ℚ) : Bool :=
  decide ((bb.1.1 : ℚ) ≤ c.1) && decide ((bb.2.1 : ℚ) ≥ c.1)
    && decide ((bb.1.2 : ℚ) ≤ c.2) && decide ((bb.2.2 : ℚ) ≥ c.2)

/-- The `count` of textdetection.cpp:1005-1015 for survivor `i`: how many
other first-pass survivors `j` have their center inside `i`'s box. -/
def containCount (n : ℕ) (bbs : ℕ → BBox) (ctrs : ℕ → ℚ × ℚ) (i : ℕ) : ℕ :=
  ((List.range n).filter fun j => decide (j ≠ i) && centerInBB (bbs i) (ctrs j)).length

/-- The second pass of `filterComponents` (textdetection.cpp:1004-1028):
keep exactly the survivors with `count < 2`.  (The source copies the five
parallel vectors through `temp*`; the surviving index set is what matters
downstream.) -/
def containmentFilter (n : ℕ) (bbs : ℕ → BBox) (ctrs : ℕ → ℚ × ℚ) : List ℕ :=
  (List.range n).filter fun i => decide (containCount n bbs ctrs i < 2)

/-! ### The rotated bounding-box search of `filterComponents`
(textdetection.cpp:912-937)

The loop `for (float theta = increment * PI; theta < PI / 2.0;
theta += increment * PI)` with `float increment = 1. / 36.` and
`#define PI 3.14159265` accumulates `theta` in IEEE single precision, so
its iteration count depends on the float rounding: it is modelled here
with exact round-to-nearest-even rounding functions on ℚ (`fl 24` for
`float`, `fl 53` for `double`; all values involved are positive and lie
far inside the normal range of both formats, where this is exactly the
IEEE semantics).  The fuel `100` of the driver is an upper bound on the
iteration count, not part of the semantics: the loop leaves via its guard
after 18 iterations (`thetaSamplesF_eq`), so any fuel ≥ 19 produces the
same list.  `cos`/`sin` are math-library calls on the float angle; they
enter the candidate computation as the parameters `cosF`/`sinF`. -/

/-- Round to the nearest integer, ties to even. -/
def roundEven (x : ℚ) : ℤ :=
  if x - ⌊x⌋ < 1 / 2 then ⌊x⌋
  else if 1 / 2 < x - ⌊x⌋ then ⌊x⌋ + 1
  else if 2 ∣ ⌊x⌋ then ⌊x⌋ else ⌊x⌋ + 1

/-- Scale a positive rational by powers of two into the mantissa window
`[2^(p-1), 2^p)`, returning the scaled value and the scaling exponent
(fuel-bounded; 300 doublings/halvings cover every IEEE magnitude). -/
def flScale (p : ℕ) : ℕ → ℚ → ℤ → ℚ × ℤ
  | 0, m, s => (m, s)
  | fuel + 1, m, s =>
    if m < 2 ^ (p - 1) then flScale p fuel (2 * m) (s + 1)
    else if 2 ^ p ≤ m then flScale p fuel (m / 2) (s - 1)
    else (m, s)

/-- Correctly-rounded (round to nearest, ties to even) floating-point
value of a rational at `p` significant bits: IEEE binary32 is `fl 24`,
binary64 is `fl 53`, for positive arguments in the normal range. -/
def fl (p : ℕ) (q : ℚ) : ℚ :=
  if 0 < q then
    (roundEven (flScale p 300 q 0).1 : ℚ) / 2 ^ (flScale p 300 q 0).2
  else 0

/-- The double constant `1. / 36.`. -/
def d36 : ℚ := fl 53 (1 / 36)

/-- `float increment = 1. / 36.` (textdetection.cpp:914). -/
def inc36 : ℚ := fl 24 d36

/-- `#define PI 3.14159265` (textdetection.cpp:46), a double literal. -/
def PId : ℚ := fl 53 (314159265 / 100000000)

/-- The loop step `increment * PI`: the float `increment` is promoted to
double (exactly) and multiplied in double precision. -/
def stepF : ℚ := fl 53 (inc36 * PId)

/-- The loop bound `PI / 2.0`: halving a binary double is exact. -/
def boundF : ℚ := PId / 2

/-- The theta loop (textdetection.cpp:915-916): `theta` is a `float`, so
each `theta += increment * PI` adds in double precision (exactly
representable inputs, one double rounding) and then rounds the result
back to single precision on assignment; the guard compares the promoted
float against the double bound exactly. -/
def thetaLoopF : ℕ → ℚ → List ℚ
  | 0, _ => []
  | fuel + 1, t =>
    if t < boundF then t :: thetaLoopF fuel (fl 24 (fl 53 (t + stepF))) else []

/-- The sampled rotation angles (radians, float values): the initializer
`float theta = increment * PI` rounds the double step to single
precision. -/
def thetaSamplesF : List ℚ := thetaLoopF 100 (fl 24 stepF)

structure Extents where
  xmin : ℚ
  xmax : ℚ
  ymin : ℚ
  ymax : ℚ

/-- The inner extent scan of textdetection.cpp:917-929 at one angle:
rotate every member pixel `(x, y)` by
`xtemp = x·cos θ − y·sin θ`, `ytemp = x·sin θ + y·cos θ` and track min/max,
starting from `xmin = ymin = 1000000`, `xmax = ymax = 0`. -/
def rotExtents (cs sn : ℚ) (pts : List (ℤ × ℤ)) : Extents :=
  pts.foldl
    (fun e p =>
      let xt := (p.1 : ℚ) * cs + (p.2 : ℚ) * (-sn)
      let yt := (p.1 : ℚ) * sn + (p.2 : ℚ) * cs
      ⟨min e.xmin xt, max e.xmax xt, min e.ymin yt, max e.ymax yt⟩)
    ⟨1000000, 0, 1000000, 0⟩

structure OBB where
  area : ℚ
  len : ℚ
  wid : ℚ
  deriving DecidableEq

/-- The candidate at one sampled angle (textdetection.cpp:930-931):
`ltemp = xmax - xmin + 1`, `wtemp = ymax - ymin + 1`, area their product. -/
def obbCand (cosF sinF : ℚ → ℚ) (pts : List (ℤ × ℤ)) (t : ℚ) : OBB :=
  let e := rotExtents (cosF t) (sinF t) pts
  ⟨(e.xmax - e.xmin + 1) * (e.ymax - e.ymin + 1), e.xmax - e.xmin + 1, e.ymax - e.ymin + 1⟩

/-- One iteration of the angle loop (textdetection.cpp:932-936): replace
the current `area`/`length`/`width` triple whenever the candidate's area is
strictly smaller. -/
def obbStep (cosF sinF : ℚ → ℚ) (pts : List (ℤ × ℤ)) (best : OBB) (t : ℚ) : OBB :=
  if (obbCand cosF sinF pts t).area < best.area then obbCand cosF sinF pts t else best

/-- The angle loop of textdetection.cpp:915-937, starting from the
axis-aligned `area`/`length`/`width` (`init`). -/
def minAreaOBB (cosF sinF : ℚ → ℚ) (pts : List (ℤ × ℤ)) (init : OBB) : OBB :=
  thetaSamplesF.foldl (obbStep cosF sinF pts) init

/-! ### Chains and `makeChains` (textdetection.cpp:1046-1421)

The `Chain` struct (fields as used throughout textdetection.cpp: endpoint
component indices `p`, `q`, the component-index list, squared endpoint
distance `dist`, direction, and the per-pass `merged` flag).

On the direction field: the source stores the direction normalized,
`(d_x / mag, d_y / mag)` with `mag = sqrt(d_x² + d_y²)`.  The only
computations that read it are the four `acos(·) < π/6` threshold tests of
the merge loop, and those are invariant under rescaling both vectors by
positive factors.  We therefore store the unnormalized difference of
centers `(d_x, d_y)` and express the threshold test in the equivalent
exact-arithmetic form (see `angleOK`).  When `mag = 0` the source's
normalization produces NaN components, every subsequent `acos` comparison
is false, and `angleOK` on the stored zero vector is false as well, so the
two agree there too. -/

structure Chain where
  p : ℕ
  q : ℕ
  components : List ℕ
  dist : ℚ
  dir : ℚ × ℚ
  merged : Bool
  deriving DecidableEq

def defaultChain : Chain := ⟨0, 0, [], 0, (0, 0), false⟩

instance : Inhabited Chain := ⟨defaultChain⟩

/-- The merge-angle threshold test.  The source computes
`acos(u·w) < strictness` with `strictness = π/6`, `u`, `v` the stored unit
directions and `w = v` or `w = -v` depending on the matched endpoints.
Since `acos` is strictly decreasing on [-1, 1] and `cos(π/6) = √3/2`, for
unit vectors this is `u·w > √3/2`, and for the unnormalized vectors stored
here it is `u·w > 0` together with `4 (u·w)² > 3 |u|² |v|²`.  If either
stored vector is zero the source's normalization produced NaN, `acos`
returns NaN, the comparison is false — and so is this test. -/
def angleOK (u v : ℚ × ℚ) (neg : Bool) : Bool :=
  let w : ℚ × ℚ := if neg then (-v.1, -v.2) else v
  let d := u.1 * w.1 + u.2 * w.2
  decide (0 < d) && decide (3 * ((u.1 ^ 2 + u.2 ^ 2) * (v.1 ^ 2 + v.2 ^ 2)) < 4 * d ^ 2)

/-- `sharesOneEnd` (textdetection.cpp:1046-1052). -/
def sharesOneEnd (c0 c1 : Chain) : Bool :=
  decide (c0.p = c1.p) || decide (c0.p = c1.q) || decide (c0.q = c1.q) || decide (c0.q = c1.p)

/-- Which endpoint pair matched, named after the source's four `else if`
branches (textdetection.cpp:1176, 1226, 1280, 1331), in their priority
order: `pp` ⇔ `chains[i].p == chains[j].p`, `pq` ⇔ `chains[i].p == chains[j].q`,
`qp` ⇔ `chains[i].q == chains[j].p`, `qq` ⇔ `chains[i].q == chains[j].q`. -/
inductive EndMatch
  | pp
  | pq
  | qp
  | qq
  deriving DecidableEq

/-- The first matching branch of the `else if` chain, if any. -/
def firstMatch (ci cj : Chain) : Option EndMatch :=
  if ci.p = cj.p then some .pp
  else if ci.p = cj.q then some .pq
  else if ci.q = cj.p then some .qp
  else if ci.q = cj.q then some .qq
  else none

/-- All matching endpoint pairs (used to state the fixpoint property). -/
def endMatches (ci cj : Chain) : List EndMatch :=
  (if ci.p = cj.p then [EndMatch.pp] else [])
    ++ (if ci.p = cj.q then [EndMatch.pq] else [])
    ++ (if ci.q = cj.p then [EndMatch.qp] else [])
    ++ (if ci.q = cj.q then [EndMatch.qq] else [])

/-- Whether the branch negates `chains[j].direction` in its `acos` test:
the `p-p` and `q-q` branches do (textdetection.cpp:1177-1182, 1332-1337),
the `p-q` and `q-p` branches do not (1227-1232, 1281-1286). -/
def caseSign : EndMatch → Bool
  | .pp => true
  | .pq => false
  | .qp => false
  | .qq => true

/-- `centers.getD k (0, 0)`: the source indexes the `compCenters` vector. -/
def ctrD (cc : List (ℚ × ℚ)) (k : ℕ) : ℚ × ℚ := cc.getD k (0, 0)

/-- The in-place update of `chains[i]` performed by the matched branch
(textdetection.cpp:1199-1218 and the three analogous blocks): move the
matched endpoint to the other chain's far endpoint, append the other
chain's component list, recompute `dist` and `direction` from the new
endpoints' centers. -/
def mergedChain (cc : List (ℚ × ℚ)) (ci cj : Chain) (em : EndMatch) : Chain :=
  let pq : ℕ × ℕ :=
    match em with
    | .pp => (cj.q, ci.q)
    | .pq => (cj.p, ci.q)
    | .qp => (ci.p, cj.q)
    | .qq => (ci.p, cj.p)
  let dx := (ctrD cc pq.1).1 - (ctrD cc pq.2).1
  let dy := (ctrD cc pq.1).2 - (ctrD cc pq.2).2
  { p := pq.1, q := pq.2, components := ci.components ++ cj.components,
    dist := dx * dx + dy * dy, dir := (dx, dy), merged := ci.merged }

/-- The body of the doubly-nested pair loop of the merge pass
(textdetection.cpp:1171-1383) for the pair `(i, j)`: skip if `i == j`,
if either chain is already merged this pass, or if no endpoint matches;
otherwise test the first matching branch's angle condition and, on
success, overwrite `chains[i]` with the merged chain, flag `chains[j]`,
and count one merge. -/
def mergeStep (cc : List (ℚ × ℚ)) (s : List Chain × ℕ) (i j : ℕ) : List Chain × ℕ :=
  if i ≠ j ∧ (s.1.getD i defaultChain).merged = false
      ∧ (s.1.getD j defaultChain).merged = false
      ∧ sharesOneEnd (s.1.getD i defaultChain) (s.1.getD j defaultChain) = true then
    match firstMatch (s.1.getD i defaultChain) (s.1.getD j defaultChain) with
    | none => s
    | some em =>
      if angleOK (s.1.getD i defaultChain).dir (s.1.getD j defaultChain).dir (caseSign em)
          = true then
        ((s.1.set i (mergedChain cc (s.1.getD i defaultChain) (s.1.getD j defaultChain) em)).set j
          { s.1.getD j defaultChain with merged := true }, s.2 + 1)
      else s
  else s

/-- The visit order of the nested loops `for i in [0, n) for j in [0, n)`. -/
def pairList (n : ℕ) : List (ℕ × ℕ) :=
  (List.range n).flatMap fun i => (List.range n).map fun j => (i, j)

/-- `{ c with merged := false }`: the flag reset at the top of each pass
(textdetection.cpp:1166-1168). -/
def resetFlag (c : Chain) : Chain := { c with merged := false }

/-- One full pass of the merge loop (textdetection.cpp:1166-1383): reset
all `merged` flags, then run the pair loop, returning the final chain
vector and the pass's `merges` counter. -/
def mergePass (cc : List (ℚ × ℚ)) (cs : List Chain) : List Chain × ℕ :=
  (pairList cs.length).foldl (fun s ij => mergeStep cc s ij.1 ij.2) (cs.map resetFlag, 0)

/-- After the pass (textdetection.cpp:1384-1390): keep the unmerged chains
and stable-sort them by descending component count (`std::stable_sort`
with `chainSortLength`; `insertionSort` on the reflexive comparison is
stable). -/
def passNext (cc : List (ℚ × ℚ)) (cs : List Chain) : List Chain :=
  List.insertionSort (fun a b : Chain => b.components.length ≤ a.components.length)
    ((mergePass cc cs).1.filter fun c => c.merged = false)

/-- The driver of the `while (merges > 0)` loop.  The fuel argument is an
upper bound on the number of passes, not part of the semantics:
`mergeLoop_eq` below proves that with fuel `cs.length + 1` this satisfies
exactly the unbounded loop's recurrence, because every pass that merges
strictly shrinks the pool (`mergePass_shrinks`). -/
def mergeLoopAux (cc : List (ℚ × ℚ)) : ℕ → List Chain → List Chain
  | 0, cs => cs
  | fuel + 1, cs =>
    if 0 < (mergePass cc cs).2 then mergeLoopAux cc fuel (passNext cc cs)
    else passNext cc cs

/-- The merge-to-fixpoint loop of `makeChains` (textdetection.cpp:1164-1391). -/
def mergeLoop (cc : List (ℚ × ℚ)) (cs : List Chain) : List Chain :=
  mergeLoopAux cc (cs.length + 1) cs

/-! ### Seed pairs and acceptance (textdetection.cpp:1094-1160, 1393-1407) -/

/-- The per-component data `makeChains` reads: center (float), stroke
median (float), dimensions (ints), one record per valid component, indexed
by component id.  (The color averages computed on textdetection.cpp:1068-1092
feed only logging and a commented-out condition, so they are omitted.) -/
structure CompData where
  center : ℚ × ℚ
  median : ℚ
  dim : ℤ × ℤ

def defaultComp : CompData := ⟨(0, 0), 0, (1, 1)⟩

/-- The eligible-pair loop of `makeChains` (textdetection.cpp:1096-1147):
for each `i < j`, form a seed chain iff the three `ratio_within` tests and
the `dist / maxDim < 1.6` test pass.  `dist` is
`square(dx) + square(dy)` where `square` takes `int` — the float center
differences are truncated toward zero by the implicit conversion.  The
stored direction is the (unnormalized, see `Chain`) difference of centers
`center_i − center_j`. -/
def seedChains (d : List CompData) : List Chain :=
  (List.range d.length).flatMap fun i =>
    ((List.range d.length).filter fun j => decide (i < j)).filterMap fun j =>
      let di := d.getD i defaultComp
      let dj := d.getD j defaultComp
      let mediansRatio := di.median / dj.median
      let dimRatioY := (di.dim.2 : ℚ) / (dj.dim.2 : ℚ)
      let dimRatioX := (di.dim.1 : ℚ) / (dj.dim.1 : ℚ)
      let dist : ℤ := square (qtrunc (di.center.1 - dj.center.1))
        + square (qtrunc (di.center.2 - dj.center.2))
      let maxDim : ℤ := square (max (min di.dim.1 di.dim.2) (min dj.dim.1 dj.dim.2))
      if ratio_within mediansRatio 3 ∧ ratio_within dimRatioY 2 ∧ ratio_within dimRatioX 2
          ∧ (dist : ℚ) / (maxDim : ℚ) < 8 / 5 then
        some { p := i, q := j, components := [i, j], dist := (dist : ℚ),
               dir := (di.center.1 - dj.center.1, di.center.2 - dj.center.2),
               merged := false }
      else none

/-- `std::unique` on a range: drop elements equal to their predecessor. -/
def uniqAdj : List ℕ → List ℕ
  | [] => []
  | [a] => [a]
  | a :: b :: t => if a = b then uniqAdj (b :: t) else a :: uniqAdj (b :: t)

/-- The acceptance step of `makeChains` (textdetection.cpp:1393-1407): keep
chains whose component list has at least 3 entries; sort each kept chain's
component list (`std::sort` on ints yields the sorted list) and erase
adjacent duplicates (`std::unique` + `erase`). -/
def acceptChains (pool : List Chain) : List Chain :=
  pool.filterMap fun c =>
    if 3 ≤ c.components.length then
      some { c with
        components := uniqAdj (List.insertionSort (fun a b : ℕ => a ≤ b) c.components) }
    else none

/-- `makeChains` (textdetection.cpp:1062-1421): seed pairs, `std::sort` by
ascending `dist` (`chainSortDist`; ties between equal keys are resolved by
`std::sort` in an unspecified order — `insertionSort`, which keeps the
generation order for ties, fixes one legal outcome), the merge fixpoint,
then acceptance. -/
def makeChains (d : List CompData) : List Chain :=
  acceptChains
    (mergeLoop (d.map fun x => x.center)
      (List.insertionSort (fun a b : Chain => a.dist ≤ b.dist) (seedChains d)))

/-- The invariant of every chain the merge loop manipulates, over the
centers vector `cc`: the stored direction is the difference of the
endpoint centers, and the chain is either a seed (component list exactly
its two distinct endpoints) or has at least 3 distinct components. -/
def ChainInv (cc : List (ℚ × ℚ)) (c : Chain) : Prop :=
  c.dir = ((ctrD cc c.p).1 - (ctrD cc c.q).1, (ctrD cc c.p).2 - (ctrD cc c.q).2)
    ∧ (3 ≤ c.components.toFinset.card ∨ (c.components = [c.p, c.q] ∧ c.p ≠ c.q))

instance (cc : List (ℚ × ℚ)) (c : Chain) : Decidable (ChainInv cc c) := by
  unfold ChainInv; infer_instance

/-! ### Inputs used by witness theorems -/

/-- Three collinear 10×10 components, centers 10 px apart: a concrete input
on which `makeChains` produces one 3-component chain. -/
def exampleComps : List CompData :=
  [⟨(0, 0), 1, (10, 10)⟩, ⟨(10, 0), 1, (10, 10)⟩, ⟨(20, 0), 1, (10, 10)⟩]

/-- The chain `makeChains exampleComps` produces. -/
def exampleChain : Chain := ⟨0, 2, [0, 1, 2], 400, (-20, 0), false⟩

/-! ### Helper lemmas -/

theorem mem_ite_list {α : Type} {P : Prop} [Decidable P] {l : List α} {a : α} :
    a ∈ (if P then l else []) ↔ P ∧ a ∈ l := by
  split <;> simp_all

theorem digitScan_eq_nil (s : List Char) :
    (digitScan s).isEmpty = true ↔ ∀ c ∈ s, isdigitC c = true := by
  induction s with
  | nil => simp [digitScan]
  | cons c t ih =>
    by_cases h : isdigitC c = true
    · simp [digitScan, h, ih]
    · simp only [digitScan, h]
      simp only [if_false, List.isEmpty_cons, Bool.false_eq_true, false_iff]
      intro hall
      exact h (hall c (by simp))

theorem is_number_iff (s : List Char) :
    is_number s = true ↔ s ≠ [] ∧ ∀ c ∈ s, isdigitC c = true := by
  rw [is_number, Bool.and_eq_true, digitScan_eq_nil]
  simp [List.isEmpty_iff]

/-- Claim C2: for a chain reaching the OCR stage with (deduplicated)
component count `n`, the OCR string is accepted — and text is emitted —
iff it is non-empty after trimming, its trimmed length equals `n`, and
every trimmed character is a decimal digit. -/
theorem claim_C2 (out : List Char) (n : ℕ) :
    (acceptText out n).isSome = true ↔
      (trimBoth out ≠ [] ∧ (trimBoth out).length = n ∧ ∀ c ∈ trimBoth out, isdigitC c = true) := by
  rcases eq_or_ne out [] with rfl | hne
  · simp [acceptText, trimBoth]
  · have hlen : out.length ≠ 0 := by simpa [List.length_eq_zero] using hne
    simp only [acceptText, hlen, if_false, ite_not]
    by_cases hl : (trimBoth out).length = n
    · simp only [hl, if_true]
      by_cases hnum : is_number (trimBoth out) = true
      · simp only [hnum, Bool.not_true, if_false]  -- accepted
        rw [is_number_iff] at hnum
        constructor
        · intro _
          exact ⟨hnum.1, trivial, hnum.2⟩
        · intro _
          simp
      · have : is_number (trimBoth out) = false := by
          revert hnum; cases is_number (trimBoth out) <;> simp
        simp only [this, Bool.not_false, if_true]
        rw [is_number_iff] at hnum
        simp only [Option.isSome_none, Bool.false_eq_true, false_iff]
        rintro ⟨h1, h2, h3⟩
        exact hnum ⟨h1, h3⟩
    · simp [hl]

/-- Claim C7: a chain whose minimum per-component height (the recorded
per-component bounding-box vertical extent, min-folded into the chain
box's extent as on textdetection.cpp:322-327) is below
`params.minCharacterheight` is rejected: it contributes no text. -/
theorem claim_C7 (imgW imgH : ℤ) (maxRatio : ℚ) (minCharH : ℤ) (bbs : ℕ → BBox)
    (comps : List ℕ) (angleOk roiOk : Bool) (ocrOut : List Char)
    (h : chainMinHeight imgW imgH bbs comps < minCharH) :
    processChain imgW imgH maxRatio minCharH bbs comps angleOk roiOk ocrOut = none := by
  simp [processChain, h]

theorem claim_C7_witness :
    chainMinHeight 100 100 (fun _ => ((0, 0), (10, 10))) [0, 1, 2] < 50
      ∧ processChain 100 100 10 50 (fun _ => ((0, 0), (10, 10))) [0, 1, 2] true true
          ['1', '2', '3'] = none := by
  refine ⟨?_, claim_C7 100 100 10 50 _ [0, 1, 2] true true ['1', '2', '3'] ?_⟩ <;>
    norm_num [chainMinHeight, chainBB, List.foldl]

/-- Claim C8 (part 1 first conjunct): the containment filter, run once over
the fixed first-pass survivor set `0, …, n-1`, keeps `i` iff fewer than 2
other survivors have their center inside `i`'s box; (part 2) consequently
no retained component's box contains the centers of 2 or more other
retained components. -/
theorem claim_C8 (n : ℕ) (bbs : ℕ → BBox) (ctrs : ℕ → ℚ × ℚ) :
    (∀ i, i ∈ containmentFilter n bbs ctrs ↔
        (i ∈ List.range n ∧ containCount n bbs ctrs i < 2))
      ∧ ∀ i ∈ containmentFilter n bbs ctrs,
        ((containmentFilter n bbs ctrs).filter fun j =>
            decide (j ≠ i) && centerInBB (bbs i) (ctrs j)).length < 2 := by
  constructor
  · intro i
    simp [containmentFilter, List.mem_filter]
  · intro i hi
    have hcnt : containCount n bbs ctrs i < 2 := by
      have := (List.mem_filter.mp hi).2
      simpa using this
    have hsub : (containmentFilter n bbs ctrs).Sublist (List.range n) :=
      List.filter_sublist _
    calc ((containmentFilter n bbs ctrs).filter fun j =>
            decide (j ≠ i) && centerInBB (bbs i) (ctrs j)).length
        ≤ ((List.range n).filter fun j =>
            decide (j ≠ i) && centerInBB (bbs i) (ctrs j)).length :=
          (hsub.filter _).length_le
      _ < 2 := hcnt

theorem claim_C8_witness :
    0 ∈ containmentFilter 1 (fun _ => ((0, 0), (1, 1))) (fun _ => (0, 0))
      ∧ ((containmentFilter 1 (fun _ => ((0, 0), (1, 1))) (fun _ => (0, 0))).filter fun j =>
          decide (j ≠ 0) && centerInBB ((0, 0), (1, 1)) (0, 0)).length < 2 := by
  have h0 : 0 ∈ containmentFilter 1 (fun _ => ((0, 0), (1, 1))) (fun _ => (0, 0)) := by
    norm_num [containmentFilter, containCount, List.range_succ]
  exact ⟨h0, (claim_C8 1 (fun _ => ((0, 0), (1, 1))) (fun _ => (0, 0))).2 0 h0⟩

theorem swtWrite_preserve {len : ℚ} (hlen : 0 ≤ len) (m : (ℕ × ℕ) → ℚ) (p q : ℕ × ℕ)
    (h0 : 0 ≤ m q) : swtWrite len m p q ≤ m q ∧ 0 ≤ swtWrite len m p q := by
  unfold swtWrite
  by_cases hqp : q = p
  · subst hqp
    simp only [if_pos rfl]
    have : ¬ m q < 0 := not_lt.mpr h0
    rw [if_neg this]
    exact ⟨min_le_left _ _, le_min h0 hlen⟩
  · simp [hqp, h0]

/-- Folding further writes with nonnegative length never increases an
already-nonnegative cell. -/
theorem foldWrite_preserve {len : ℚ} (hlen : 0 ≤ len) (pts : List (ℕ × ℕ)) :
    ∀ (m : (ℕ × ℕ) → ℚ) (q : ℕ × ℕ), 0 ≤ m q →
      (pts.foldl (swtWrite len) m) q ≤ m q ∧ 0 ≤ (pts.foldl (swtWrite len) m) q := by
  induction pts with
  | nil => intro m q h0; exact ⟨le_refl _, h0⟩
  | cons x t ih =>
    intro m q h0
    have h1 := swtWrite_preserve hlen m x q h0
    have h2 := ih (swtWrite len m x) q h1.2
    exact ⟨le_trans h2.1 h1.1, h2.2⟩

/-- After a ray's own write loop, each of its path pixels is `≤` the ray's
length and nonnegative. -/
theorem foldWrite_self {len : ℚ} (hlen : 0 ≤ len) (pts : List (ℕ × ℕ)) :
    ∀ p ∈ pts, ∀ (m : (ℕ × ℕ) → ℚ),
      (pts.foldl (swtWrite len) m) p ≤ len ∧ 0 ≤ (pts.foldl (swtWrite len) m) p := by
  induction pts with
  | nil => intro p hp; exact absurd hp (List.not_mem_nil p)
  | cons x t ih =>
    intro p hp m
    rcases List.mem_cons.mp hp with rfl | hpt
    · by_cases hpt' : p ∈ t
      · exact ih p hpt' _
      · have hx : swtWrite len m p p ≤ len ∧ 0 ≤ swtWrite len m p p := by
          unfold swtWrite
          simp only [if_pos rfl]
          by_cases hm : m p < 0
          · rw [if_pos hm]; exact ⟨le_refl _, hlen⟩
          · rw [if_neg hm]
            exact ⟨min_le_right _ _, le_min (not_lt.mp hm) hlen⟩
        have := foldWrite_preserve hlen t (swtWrite len m p) p hx.2
        exact ⟨le_trans this.1 hx.1, this.2⟩
    · exact ih p hpt _

theorem swtApplyRay_preserve (r : RayM) (hlen : 0 ≤ r.len) (m : (ℕ × ℕ) → ℚ)
    (q : ℕ × ℕ) (h0 : 0 ≤ m q) :
    swtApplyRay m r q ≤ m q ∧ 0 ≤ swtApplyRay m r q :=
  foldWrite_preserve hlen r.pts m q h0

/-- Folding whole rays (with nonnegative lengths) never increases an
already-nonnegative cell. -/
theorem foldRays_preserve (t : List RayM) (ht : ∀ r ∈ t, 0 ≤ r.len) :
    ∀ (m : (ℕ × ℕ) → ℚ) (q : ℕ × ℕ), 0 ≤ m q →
      (t.foldl swtApplyRay m) q ≤ m q ∧ 0 ≤ (t.foldl swtApplyRay m) q := by
  induction t with
  | nil => intro m q h0; exact ⟨le_refl _, h0⟩
  | cons u v ih =>
    intro m q h0
    have hu := swtApplyRay_preserve u (ht u (by simp)) m q h0
    have hv := ih (fun r hr => ht r (by simp [hr])) (swtApplyRay m u) q hu.2
    exact ⟨le_trans hv.1 hu.1, hv.2⟩

/-- Through the whole transform, every pixel of every accepted ray ends up
`≤` that ray's length (and nonnegative). -/
theorem strokeWidthTransform_le (rays : List RayM) (hlen : ∀ r ∈ rays, 0 ≤ r.len) :
    ∀ (m : (ℕ × ℕ) → ℚ), ∀ r ∈ rays, ∀ p ∈ r.pts,
      strokeWidthTransform rays m p ≤ r.len ∧ 0 ≤ strokeWidthTransform rays m p := by
  induction rays with
  | nil => intro m r hr; exact absurd hr (List.not_mem_nil r)
  | cons s t ih =>
    intro m r hr p hp
    have hs : 0 ≤ s.len := hlen s (by simp)
    have ht : ∀ r ∈ t, 0 ≤ r.len := fun r hr => hlen r (by simp [hr])
    rcases List.mem_cons.mp hr with rfl | hrt
    · by_cases hrt' : r ∈ t
      · exact ih ht _ r hrt' p hp
      · have h1 := foldWrite_self hs r.pts p hp m
        have h3 := foldRays_preserve t ht (swtApplyRay m r) p h1.2
        exact ⟨le_trans h3.1 h1.1, h3.2⟩
    · exact ih ht _ r hrt p hp

/-- The write loop of one median pass is pointwise non-increasing. -/
theorem medianFoldWrite_le (m : (ℕ × ℕ) → ℚ) (med : ℚ) (pts : List (ℕ × ℕ)) :
    ∀ (m' : (ℕ × ℕ) → ℚ), (∀ q, m' q ≤ m q) → ∀ q,
      (pts.foldl (fun m'' p => fun q => if q = p then min (m p) med else m'' q) m') q ≤ m q := by
  induction pts with
  | nil => intro m' h q; exact h q
  | cons x t ih =>
    intro m' h q
    refine ih _ ?_ q
    intro q'
    by_cases hq : q' = x
    · subst hq; simp only [if_pos rfl]; exact min_le_left _ _
    · simp only [if_neg hq]; exact h q'

/-- One median pass never increases any cell (claim C5's "the median filter
only further decreases values", per ray). -/
theorem medianApplyRay_le (m : (ℕ × ℕ) → ℚ) (r : RayM) (q : ℕ × ℕ) :
    medianApplyRay m r q ≤ m q :=
  medianFoldWrite_le m (rayMedian m r) r.pts m (fun _ => le_refl _) q

/-- The whole median filter never increases any cell. -/
theorem SWTMedianFilter_le (rays : List RayM) :
    ∀ (m : (ℕ × ℕ) → ℚ) (q : ℕ × ℕ), SWTMedianFilter m rays q ≤ m q := by
  induction rays with
  | nil => intro m q; exact le_refl _
  | cons s t ih =>
    intro m q
    exact le_trans (ih (medianApplyRay m s) q) (medianApplyRay_le m s q)

/-- Claim C5: with the map left by the ray transform and then the median
filter, every pixel on an accepted ray's path holds a value at most that
ray's length (the transform writes only min-updates; the median filter
only further decreases values — the second conjunct). -/
theorem claim_C5 (rays : List RayM) (m0 : (ℕ × ℕ) → ℚ) (hlen : ∀ r ∈ rays, 0 ≤ r.len) :
    (∀ r ∈ rays, ∀ p ∈ r.pts,
        SWTMedianFilter (strokeWidthTransform rays m0) rays p ≤ r.len)
      ∧ ∀ (m : (ℕ × ℕ) → ℚ) (q : ℕ × ℕ), SWTMedianFilter m rays q ≤ m q := by
  refine ⟨?_, fun m q => SWTMedianFilter_le rays m q⟩
  intro r hr p hp
  exact le_trans (SWTMedianFilter_le rays _ p)
    (strokeWidthTransform_le rays hlen m0 r hr p hp).1

theorem claim_C5_witness :
    (∀ r ∈ [RayM.mk [(0, 0), (0, 1)] 5], 0 ≤ r.len)
      ∧ ((∀ r ∈ [RayM.mk [(0, 0), (0, 1)] 5], ∀ p ∈ r.pts,
            SWTMedianFilter (strokeWidthTransform [RayM.mk [(0, 0), (0, 1)] 5] fun _ => -1)
              [RayM.mk [(0, 0), (0, 1)] 5] p ≤ r.len)
          ∧ ∀ (m : (ℕ × ℕ) → ℚ) (q : ℕ × ℕ),
              SWTMedianFilter m [RayM.mk [(0, 0), (0, 1)] 5] q ≤ m q) := by
  refine ⟨?_, claim_C5 [RayM.mk [(0, 0), (0, 1)] 5] (fun _ => -1) ?_⟩ <;>
    · intro r hr
      simp only [List.mem_singleton] at hr
      subst hr
      norm_num

/-! #### Evaluation of the float theta loop

`fl_eval_lo` / `fl_eval_hi` / `fl_exact` reduce a rounding to integer
window checks on the scaled mantissa; the `flv_*` lemmas evaluate every
rounding the loop performs, and `thetaSamplesF_eq` assembles them into
the explicit sample list. -/

/-- Rounding down: a rational within `[n, n + 1/2)` rounds to `n`. -/
theorem roundEven_lo (x : ℚ) (n : ℤ) (h1 : (n : ℚ) ≤ x) (h2 : x < (n : ℚ) + 1 / 2) :
    roundEven x = n := by
  have hfl : ⌊x⌋ = n := Int.floor_eq_iff.mpr ⟨h1, by linarith⟩
  unfold roundEven
  rw [hfl, if_pos (by linarith)]

theorem roundEven_hi (x : ℚ) (n : ℤ) (h1 : (n : ℚ) + 1 / 2 < x) (h2 : x < (n : ℚ) + 1) :
    roundEven x = n + 1 := by
  have hfl : ⌊x⌋ = n := Int.floor_eq_iff.mpr ⟨by linarith, by linarith⟩
  unfold roundEven
  rw [hfl, if_neg (by linarith), if_pos (by linarith)]

theorem flScale_eval (p : ℕ) (hp : 1 ≤ p) :
    ∀ (k fuel : ℕ) (m : ℚ) (s : ℤ), k ≤ fuel → 0 < m →
      2 ^ (p - 1) ≤ 2 ^ k * m → 2 ^ k * m < 2 ^ p →
      flScale p fuel m s = (2 ^ k * m, s + k) := by
  intro k
  induction k with
  | zero =>
    intro fuel m s _ hm hlo hhi
    simp only [pow_zero, one_mul] at hlo hhi ⊢
    cases fuel with
    | zero => simp [flScale]
    | succ f =>
      rw [flScale, if_neg (not_lt.mpr hlo), if_neg (not_le.mpr hhi)]
      norm_num
  | succ k ih =>
    intro fuel m s hk hm hlo hhi
    cases fuel with
    | zero => omega
    | succ f =>
      have h2p : (2 : ℚ) ^ p = 2 * 2 ^ (p - 1) := by
        rw [← pow_succ']
        congr 1
        omega
      have hk1 : (1 : ℚ) ≤ 2 ^ k := one_le_pow₀ (by norm_num)
      have heq : (2 : ℚ) ^ (k + 1) * m = 2 ^ k * (2 * m) := by ring
      have hmlt : m < 2 ^ (p - 1) := by nlinarith
      rw [flScale, if_pos hmlt,
        ih f (2 * m) (s + 1) (by omega) (by positivity) (by linarith [heq]) (by linarith [heq])]
      simp only [Prod.mk.injEq]
      constructor
      · ring
      · push_cast
        ring

theorem fl_eval_lo (p k : ℕ) (q : ℚ) (n : ℤ) (hp : 1 ≤ p) (hk : k ≤ 300) (hq : 0 < q)
    (hwlo : (2 : ℤ) ^ (p - 1) ≤ n) (hwhi : n < 2 ^ p)
    (hn1 : (n : ℚ) ≤ 2 ^ k * q) (hn2 : 2 ^ k * q < (n : ℚ) + 1 / 2) :
    fl p q = (n : ℚ) / 2 ^ k := by
  have hwin_lo : (2 : ℚ) ^ (p - 1) ≤ 2 ^ k * q := le_trans (by exact_mod_cast hwlo) hn1
  have hwin_hi : 2 ^ k * q < 2 ^ p := by
    have h1 : (n : ℚ) + 1 ≤ 2 ^ p := by exact_mod_cast hwhi
    linarith
  unfold fl
  rw [if_pos hq, flScale_eval p hp k 300 q 0 hk hq hwin_lo hwin_hi]
  rw [roundEven_lo _ n hn1 hn2, zero_add, zpow_natCast]

theorem fl_eval_hi (p k : ℕ) (q : ℚ) (n : ℤ) (hp : 1 ≤ p) (hk : k ≤ 300) (hq : 0 < q)
    (hwlo : (2 : ℤ) ^ (p - 1) ≤ n) (hwhi : n < 2 ^ p)
    (hn1 : (n : ℚ) + 1 / 2 < 2 ^ k * q) (hn2 : 2 ^ k * q < (n : ℚ) + 1) :
    fl p q = ((n : ℚ) + 1) / 2 ^ k := by
  have hwin_lo : (2 : ℚ) ^ (p - 1) ≤ 2 ^ k * q := by
    have h1 : ((2 : ℚ) ^ (p - 1) : ℚ) ≤ (n : ℚ) := by exact_mod_cast hwlo
    linarith
  have hwin_hi : 2 ^ k * q < 2 ^ p := by
    have h1 : (n : ℚ) + 1 ≤ 2 ^ p := by exact_mod_cast hwhi
    linarith
  unfold fl
  rw [if_pos hq, flScale_eval p hp k 300 q 0 hk hq hwin_lo hwin_hi]
  rw [roundEven_hi _ n hn1 hn2, zero_add, zpow_natCast]
  push_cast
  rfl

theorem fl_exact (p k : ℕ) (q : ℚ) (n : ℤ) (hp : 1 ≤ p) (hk : k ≤ 300) (hq : 0 < q)
    (hwlo : (2 : ℤ) ^ (p - 1) ≤ n) (hwhi : n < 2 ^ p)
    (hn : (n : ℚ) = 2 ^ k * q) :
    fl p q = q := by
  rw [fl_eval_lo p k q n hp hk hq hwlo hwhi (le_of_eq hn) (by rw [← hn]; linarith), hn]
  field_simp

theorem flv_d36 : d36 = 2001599834386887 / 72057594037927936 := by
  rw [d36, fl_eval_lo 53 58 (1 / 36) 8006399337547548 (by norm_num) (by norm_num) (by norm_num)
    (by norm_num) (by norm_num) (by norm_num) (by norm_num)]
  norm_num

theorem flv_inc : inc36 = 14913081 / 536870912 := by
  rw [inc36, flv_d36, fl_eval_hi 24 29 (2001599834386887 / 72057594037927936) 14913080 (by norm_num) (by norm_num)
    (by norm_num) (by norm_num) (by norm_num) (by norm_num) (by norm_num)]
  norm_num

theorem flv_PI : PId = 7074237743944945 / 2251799813685248 := by
  rw [PId, fl_eval_hi 53 51 (314159265 / 100000000) 7074237743944944 (by norm_num) (by norm_num)
    (by norm_num) (by norm_num) (by norm_num) (by norm_num) (by norm_num)]
  norm_num

theorem flv_step : stepF = 196506605462559 / 2251799813685248 := by
  rw [stepF, flv_inc, flv_PI, fl_eval_hi 53 56 ((14913081 / 536870912) * (7074237743944945 / 2251799813685248)) 6288211374801887
    (by norm_num) (by norm_num) (by norm_num) (by norm_num) (by norm_num) (by norm_num)
    (by norm_num)]
  norm_num

theorem flv_bound : boundF = 7074237743944945 / 4503599627370496 := by
  rw [boundF, flv_PI]
  norm_num

theorem flv_t1 : fl 24 stepF = 5856353 / 67108864 := by
  rw [flv_step, fl_eval_lo 24 27 (196506605462559 / 2251799813685248) 11712706 (by norm_num) (by norm_num)
    (by norm_num) (by norm_num) (by norm_num) (by norm_num) (by norm_num)]
  norm_num

theorem flv_s1 : fl 53 ((5856353 / 67108864) + (196506605462559 / 2251799813685248)) = 393013203969055 / 2251799813685248 := by
  rw [fl_exact 53 55 ((5856353 / 67108864) + (196506605462559 / 2251799813685248)) 6288211263504880 (by norm_num) (by norm_num)
    (by norm_num) (by norm_num) (by norm_num) (by norm_num)]
  norm_num

theorem flv_t2 : fl 24 (393013203969055 / 2251799813685248) = 5856353 / 33554432 := by
  rw [fl_eval_lo 24 26 (393013203969055 / 2251799813685248) 11712706 (by norm_num) (by norm_num) (by norm_num)
    (by norm_num) (by norm_num) (by norm_num) (by norm_num)]
  norm_num

theorem tstep1 : ∀ fuel, thetaLoopF (fuel + 1) (5856353 / 67108864) =
    (5856353 / 67108864) :: thetaLoopF fuel (5856353 / 33554432) := by
  intro fuel
  rw [thetaLoopF, if_pos (by rw [flv_bound]; norm_num), flv_step, flv_s1, flv_t2]

theorem flv_s2 : fl 53 ((5856353 / 33554432) + (196506605462559 / 2251799813685248)) = 589519802475551 / 2251799813685248 := by
  rw [fl_exact 53 54 ((5856353 / 33554432) + (196506605462559 / 2251799813685248)) 4716158419804408 (by norm_num) (by norm_num)
    (by norm_num) (by norm_num) (by norm_num) (by norm_num)]
  norm_num

theorem flv_t3 : fl 24 (589519802475551 / 2251799813685248) = 4392265 / 16777216 := by
  rw [fl_eval_hi 24 25 (589519802475551 / 2251799813685248) 8784529 (by norm_num) (by norm_num) (by norm_num)
    (by norm_num) (by norm_num) (by norm_num) (by norm_num)]
  norm_num

theorem tstep2 : ∀ fuel, thetaLoopF (fuel + 1) (5856353 / 33554432) =
    (5856353 / 33554432) :: thetaLoopF fuel (4392265 / 16777216) := by
  intro fuel
  rw [thetaLoopF, if_pos (by rw [flv_bound]; norm_num), flv_step, flv_s2, flv_t3]

theorem flv_s3 : fl 53 ((4392265 / 16777216) + (196506605462559 / 2251799813685248)) = 786026434536479 / 2251799813685248 := by
  rw [fl_exact 53 54 ((4392265 / 16777216) + (196506605462559 / 2251799813685248)) 6288211476291832 (by norm_num) (by norm_num)
    (by norm_num) (by norm_num) (by norm_num) (by norm_num)]
  norm_num

theorem flv_t4 : fl 24 (786026434536479 / 2251799813685248) = 11712707 / 33554432 := by
  rw [fl_eval_hi 24 25 (786026434536479 / 2251799813685248) 11712706 (by norm_num) (by norm_num) (by norm_num)
    (by norm_num) (by norm_num) (by norm_num) (by norm_num)]
  norm_num

theorem tstep3 : ∀ fuel, thetaLoopF (fuel + 1) (4392265 / 16777216) =
    (4392265 / 16777216) :: thetaLoopF fuel (11712707 / 33554432) := by
  intro fuel
  rw [thetaLoopF, if_pos (by rw [flv_bound]; norm_num), flv_step, flv_s3, flv_t4]

theorem flv_s4 : fl 53 ((11712707 / 33554432) + (196506605462559 / 2251799813685248)) = 982533066597407 / 2251799813685248 := by
  rw [fl_exact 53 54 ((11712707 / 33554432) + (196506605462559 / 2251799813685248)) 7860264532779256 (by norm_num) (by norm_num)
    (by norm_num) (by norm_num) (by norm_num) (by norm_num)]
  norm_num

theorem flv_t5 : fl 24 (982533066597407 / 2251799813685248) = 3660221 / 8388608 := by
  rw [fl_eval_hi 24 25 (982533066597407 / 2251799813685248) 14640883 (by norm_num) (by norm_num) (by norm_num)
    (by norm_num) (by norm_num) (by norm_num) (by norm_num)]
  norm_num

theorem tstep4 : ∀ fuel, thetaLoopF (fuel + 1) (11712707 / 33554432) =
    (11712707 / 33554432) :: thetaLoopF fuel (3660221 / 8388608) := by
  intro fuel
  rw [thetaLoopF, if_pos (by rw [flv_bound]; norm_num), flv_step, flv_s4, flv_t5]

theorem flv_s5 : fl 53 ((3660221 / 8388608) + (196506605462559 / 2251799813685248)) = 1179039698658335 / 2251799813685248 := by
  rw [fl_exact 53 53 ((3660221 / 8388608) + (196506605462559 / 2251799813685248)) 4716158794633340 (by norm_num) (by norm_num)
    (by norm_num) (by norm_num) (by norm_num) (by norm_num)]
  norm_num

theorem flv_t6 : fl 24 (1179039698658335 / 2251799813685248) = 4392265 / 8388608 := by
  rw [fl_eval_lo 24 24 (1179039698658335 / 2251799813685248) 8784530 (by norm_num) (by norm_num) (by norm_num)
    (by norm_num) (by norm_num) (by norm_num) (by norm_num)]
  norm_num

theorem tstep5 : ∀ fuel, thetaLoopF (fuel + 1) (3660221 / 8388608) =
    (3660221 / 8388608) :: thetaLoopF fuel (4392265 / 8388608) := by
  intro fuel
  rw [thetaLoopF, if_pos (by rw [flv_bound]; norm_num), flv_step, flv_s5, flv_t6]

theorem flv_s6 : fl 53 ((4392265 / 8388608) + (196506605462559 / 2251799813685248)) = 1375546263610399 / 2251799813685248 := by
  rw [fl_exact 53 53 ((4392265 / 8388608) + (196506605462559 / 2251799813685248)) 5502185054441596 (by norm_num) (by norm_num)
    (by norm_num) (by norm_num) (by norm_num) (by norm_num)]
  norm_num

theorem flv_t7 : fl 24 (1375546263610399 / 2251799813685248) = 5124309 / 8388608 := by
  rw [fl_eval_lo 24 24 (1375546263610399 / 2251799813685248) 10248618 (by norm_num) (by norm_num) (by norm_num)
    (by norm_num) (by norm_num) (by norm_num) (by norm_num)]
  norm_num

theorem tstep6 : ∀ fuel, thetaLoopF (fuel + 1) (4392265 / 8388608) =
    (4392265 / 8388608) :: thetaLoopF fuel (5124309 / 8388608) := by
  intro fuel
  rw [thetaLoopF, if_pos (by rw [flv_bound]; norm_num), flv_step, flv_s6, flv_t7]

theorem flv_s7 : fl 53 ((5124309 / 8388608) + (196506605462559 / 2251799813685248)) = 1572052828562463 / 2251799813685248 := by
  rw [fl_exact 53 53 ((5124309 / 8388608) + (196506605462559 / 2251799813685248)) 6288211314249852 (by norm_num) (by norm_num)
    (by norm_num) (by norm_num) (by norm_num) (by norm_num)]
  norm_num

theorem flv_t8 : fl 24 (1572052828562463 / 2251799813685248) = 5856353 / 8388608 := by
  rw [fl_eval_lo 24 24 (1572052828562463 / 2251799813685248) 11712706 (by norm_num) (by norm_num) (by norm_num)
    (by norm_num) (by norm_num) (by norm_num) (by norm_num)]
  norm_num

theorem tstep7 : ∀ fuel, thetaLoopF (fuel + 1) (5124309 / 8388608) =
    (5124309 / 8388608) :: thetaLoopF fuel (5856353 / 8388608) := by
  intro fuel
  rw [thetaLoopF, if_pos (by rw [flv_bound]; norm_num), flv_step, flv_s7, flv_t8]

theorem flv_s8 : fl 53 ((5856353 / 8388608) + (196506605462559 / 2251799813685248)) = 1768559393514527 / 2251799813685248 := by
  rw [fl_exact 53 53 ((5856353 / 8388608) + (196506605462559 / 2251799813685248)) 7074237574058108 (by norm_num) (by norm_num)
    (by norm_num) (by norm_num) (by norm_num) (by norm_num)]
  norm_num

theorem flv_t9 : fl 24 (1768559393514527 / 2251799813685248) = 6588397 / 8388608 := by
  rw [fl_eval_lo 24 24 (1768559393514527 / 2251799813685248) 13176794 (by norm_num) (by norm_num) (by norm_num)
    (by norm_num) (by norm_num) (by norm_num) (by norm_num)]
  norm_num

theorem tstep8 : ∀ fuel, thetaLoopF (fuel + 1) (5856353 / 8388608) =
    (5856353 / 8388608) :: thetaLoopF fuel (6588397 / 8388608) := by
  intro fuel
  rw [thetaLoopF, if_pos (by rw [flv_bound]; norm_num), flv_step, flv_s8, flv_t9]

theorem flv_s9 : fl 53 ((6588397 / 8388608) + (196506605462559 / 2251799813685248)) = 1965065958466591 / 2251799813685248 := by
  rw [fl_exact 53 53 ((6588397 / 8388608) + (196506605462559 / 2251799813685248)) 7860263833866364 (by norm_num) (by norm_num)
    (by norm_num) (by norm_num) (by norm_num) (by norm_num)]
  norm_num

theorem flv_t10 : fl 24 (1965065958466591 / 2251799813685248) = 7320441 / 8388608 := by
  rw [fl_eval_lo 24 24 (1965065958466591 / 2251799813685248) 14640882 (by norm_num) (by norm_num) (by norm_num)
    (by norm_num) (by norm_num) (by norm_num) (by norm_num)]
  norm_num

theorem tstep9 : ∀ fuel, thetaLoopF (fuel + 1) (6588397 / 8388608) =
    (6588397 / 8388608) :: thetaLoopF fuel (7320441 / 8388608) := by
  intro fuel
  rw [thetaLoopF, if_pos (by rw [flv_bound]; norm_num), flv_step, flv_s9, flv_t10]

theorem flv_s10 : fl 53 ((7320441 / 8388608) + (196506605462559 / 2251799813685248)) = 2161572523418655 / 2251799813685248 := by
  rw [fl_exact 53 53 ((7320441 / 8388608) + (196506605462559 / 2251799813685248)) 8646290093674620 (by norm_num) (by norm_num)
    (by norm_num) (by norm_num) (by norm_num) (by norm_num)]
  norm_num

theorem flv_t11 : fl 24 (2161572523418655 / 2251799813685248) = 8052485 / 8388608 := by
  rw [fl_eval_lo 24 24 (2161572523418655 / 2251799813685248) 16104970 (by norm_num) (by norm_num) (by norm_num)
    (by norm_num) (by norm_num) (by norm_num) (by norm_num)]
  norm_num

theorem tstep10 : ∀ fuel, thetaLoopF (fuel + 1) (7320441 / 8388608) =
    (7320441 / 8388608) :: thetaLoopF fuel (8052485 / 8388608) := by
  intro fuel
  rw [thetaLoopF, if_pos (by rw [flv_bound]; norm_num), flv_step, flv_s10, flv_t11]

theorem flv_s11 : fl 53 ((8052485 / 8388608) + (196506605462559 / 2251799813685248)) = 2358079088370719 / 2251799813685248 := by
  rw [fl_exact 53 52 ((8052485 / 8388608) + (196506605462559 / 2251799813685248)) 4716158176741438 (by norm_num) (by norm_num)
    (by norm_num) (by norm_num) (by norm_num) (by norm_num)]
  norm_num

theorem flv_t12 : fl 24 (2358079088370719 / 2251799813685248) = 8784529 / 8388608 := by
  rw [fl_eval_lo 24 23 (2358079088370719 / 2251799813685248) 8784529 (by norm_num) (by norm_num) (by norm_num)
    (by norm_num) (by norm_num) (by norm_num) (by norm_num)]
  norm_num

theorem tstep11 : ∀ fuel, thetaLoopF (fuel + 1) (8052485 / 8388608) =
    (8052485 / 8388608) :: thetaLoopF fuel (8784529 / 8388608) := by
  intro fuel
  rw [thetaLoopF, if_pos (by rw [flv_bound]; norm_num), flv_step, flv_s11, flv_t12]

theorem flv_s12 : fl 53 ((8784529 / 8388608) + (196506605462559 / 2251799813685248)) = 2554585653322783 / 2251799813685248 := by
  rw [fl_exact 53 52 ((8784529 / 8388608) + (196506605462559 / 2251799813685248)) 5109171306645566 (by norm_num) (by norm_num)
    (by norm_num) (by norm_num) (by norm_num) (by norm_num)]
  norm_num

theorem flv_t13 : fl 24 (2554585653322783 / 2251799813685248) = 9516573 / 8388608 := by
  rw [fl_eval_lo 24 23 (2554585653322783 / 2251799813685248) 9516573 (by norm_num) (by norm_num) (by norm_num)
    (by norm_num) (by norm_num) (by norm_num) (by norm_num)]
  norm_num

theorem tstep12 : ∀ fuel, thetaLoopF (fuel + 1) (8784529 / 8388608) =
    (8784529 / 8388608) :: thetaLoopF fuel (9516573 / 8388608) := by
  intro fuel
  rw [thetaLoopF, if_pos (by rw [flv_bound]; norm_num), flv_step, flv_s12, flv_t13]

theorem flv_s13 : fl 53 ((9516573 / 8388608) + (196506605462559 / 2251799813685248)) = 2751092218274847 / 2251799813685248 := by
  rw [fl_exact 53 52 ((9516573 / 8388608) + (196506605462559 / 2251799813685248)) 5502184436549694 (by norm_num) (by norm_num)
    (by norm_num) (by norm_num) (by norm_num) (by norm_num)]
  norm_num

theorem flv_t14 : fl 24 (2751092218274847 / 2251799813685248) = 10248617 / 8388608 := by
  rw [fl_eval_lo 24 23 (2751092218274847 / 2251799813685248) 10248617 (by norm_num) (by norm_num) (by norm_num)
    (by norm_num) (by norm_num) (by norm_num) (by norm_num)]
  norm_num

theorem tstep13 : ∀ fuel, thetaLoopF (fuel + 1) (9516573 / 8388608) =
    (9516573 / 8388608) :: thetaLoopF fuel (10248617 / 8388608) := by
  intro fuel
  rw [thetaLoopF, if_pos (by rw [flv_bound]; norm_num), flv_step, flv_s13, flv_t14]

theorem flv_s14 : fl 53 ((10248617 / 8388608) + (196506605462559 / 2251799813685248)) = 2947598783226911 / 2251799813685248 := by
  rw [fl_exact 53 52 ((10248617 / 8388608) + (196506605462559 / 2251799813685248)) 5895197566453822 (by norm_num) (by norm_num)
    (by norm_num) (by norm_num) (by norm_num) (by norm_num)]
  norm_num

theorem flv_t15 : fl 24 (2947598783226911 / 2251799813685248) = 10980661 / 8388608 := by
  rw [fl_eval_lo 24 23 (2947598783226911 / 2251799813685248) 10980661 (by norm_num) (by norm_num) (by norm_num)
    (by norm_num) (by norm_num) (by norm_num) (by norm_num)]
  norm_num

theorem tstep14 : ∀ fuel, thetaLoopF (fuel + 1) (10248617 / 8388608) =
    (10248617 / 8388608) :: thetaLoopF fuel (10980661 / 8388608) := by
  intro fuel
  rw [thetaLoopF, if_pos (by rw [flv_bound]; norm_num), flv_step, flv_s14, flv_t15]

theorem flv_s15 : fl 53 ((10980661 / 8388608) + (196506605462559 / 2251799813685248)) = 3144105348178975 / 2251799813685248 := by
  rw [fl_exact 53 52 ((10980661 / 8388608) + (196506605462559 / 2251799813685248)) 6288210696357950 (by norm_num) (by norm_num)
    (by norm_num) (by norm_num) (by norm_num) (by norm_num)]
  norm_num

theorem flv_t16 : fl 24 (3144105348178975 / 2251799813685248) = 11712705 / 8388608 := by
  rw [fl_eval_lo 24 23 (3144105348178975 / 2251799813685248) 11712705 (by norm_num) (by norm_num) (by norm_num)
    (by norm_num) (by norm_num) (by norm_num) (by norm_num)]
  norm_num

theorem tstep15 : ∀ fuel, thetaLoopF (fuel + 1) (10980661 / 8388608) =
    (10980661 / 8388608) :: thetaLoopF fuel (11712705 / 8388608) := by
  intro fuel
  rw [thetaLoopF, if_pos (by rw [flv_bound]; norm_num), flv_step, flv_s15, flv_t16]

theorem flv_s16 : fl 53 ((11712705 / 8388608) + (196506605462559 / 2251799813685248)) = 3340611913131039 / 2251799813685248 := by
  rw [fl_exact 53 52 ((11712705 / 8388608) + (196506605462559 / 2251799813685248)) 6681223826262078 (by norm_num) (by norm_num)
    (by norm_num) (by norm_num) (by norm_num) (by norm_num)]
  norm_num

theorem flv_t17 : fl 24 (3340611913131039 / 2251799813685248) = 12444749 / 8388608 := by
  rw [fl_eval_lo 24 23 (3340611913131039 / 2251799813685248) 12444749 (by norm_num) (by norm_num) (by norm_num)
    (by norm_num) (by norm_num) (by norm_num) (by norm_num)]
  norm_num

theorem tstep16 : ∀ fuel, thetaLoopF (fuel + 1) (11712705 / 8388608) =
    (11712705 / 8388608) :: thetaLoopF fuel (12444749 / 8388608) := by
  intro fuel
  rw [thetaLoopF, if_pos (by rw [flv_bound]; norm_num), flv_step, flv_s16, flv_t17]

theorem flv_s17 : fl 53 ((12444749 / 8388608) + (196506605462559 / 2251799813685248)) = 3537118478083103 / 2251799813685248 := by
  rw [fl_exact 53 52 ((12444749 / 8388608) + (196506605462559 / 2251799813685248)) 7074236956166206 (by norm_num) (by norm_num)
    (by norm_num) (by norm_num) (by norm_num) (by norm_num)]
  norm_num

theorem flv_t18 : fl 24 (3537118478083103 / 2251799813685248) = 13176793 / 8388608 := by
  rw [fl_eval_lo 24 23 (3537118478083103 / 2251799813685248) 13176793 (by norm_num) (by norm_num) (by norm_num)
    (by norm_num) (by norm_num) (by norm_num) (by norm_num)]
  norm_num

theorem tstep17 : ∀ fuel, thetaLoopF (fuel + 1) (12444749 / 8388608) =
    (12444749 / 8388608) :: thetaLoopF fuel (13176793 / 8388608) := by
  intro fuel
  rw [thetaLoopF, if_pos (by rw [flv_bound]; norm_num), flv_step, flv_s17, flv_t18]

theorem flv_s18 : fl 53 ((13176793 / 8388608) + (196506605462559 / 2251799813685248)) = 3733625043035167 / 2251799813685248 := by
  rw [fl_exact 53 52 ((13176793 / 8388608) + (196506605462559 / 2251799813685248)) 7467250086070334 (by norm_num) (by norm_num)
    (by norm_num) (by norm_num) (by norm_num) (by norm_num)]
  norm_num

theorem flv_t19 : fl 24 (3733625043035167 / 2251799813685248) = 13908837 / 8388608 := by
  rw [fl_eval_lo 24 23 (3733625043035167 / 2251799813685248) 13908837 (by norm_num) (by norm_num) (by norm_num)
    (by norm_num) (by norm_num) (by norm_num) (by norm_num)]
  norm_num

theorem tstep18 : ∀ fuel, thetaLoopF (fuel + 1) (13176793 / 8388608) =
    (13176793 / 8388608) :: thetaLoopF fuel (13908837 / 8388608) := by
  intro fuel
  rw [thetaLoopF, if_pos (by rw [flv_bound]; norm_num), flv_step, flv_s18, flv_t19]

theorem tend : ∀ fuel, thetaLoopF (fuel + 1) (13908837 / 8388608) = [] := by
  intro fuel
  rw [thetaLoopF, if_neg (by rw [flv_bound]; norm_num)]

/-- The theta loop runs exactly 18 times: the float32 accumulation of
`increment * PI` admits an 18th iteration with `theta` one float ulp below
`PI / 2.0` (≈ 89.99999°). -/
theorem thetaSamplesF_eq :
    thetaSamplesF = [5856353 / 67108864,
      5856353 / 33554432,
      4392265 / 16777216,
      11712707 / 33554432,
      3660221 / 8388608,
      4392265 / 8388608,
      5124309 / 8388608,
      5856353 / 8388608,
      6588397 / 8388608,
      7320441 / 8388608,
      8052485 / 8388608,
      8784529 / 8388608,
      9516573 / 8388608,
      10248617 / 8388608,
      10980661 / 8388608,
      11712705 / 8388608,
      12444749 / 8388608,
      13176793 / 8388608] := by
  rw [thetaSamplesF, flv_t1,
    show (100 : ℕ) = 99 + 1 by norm_num,
    tstep1,
    show (99 : ℕ) = 98 + 1 by norm_num,
    tstep2,
    show (98 : ℕ) = 97 + 1 by norm_num,
    tstep3,
    show (97 : ℕ) = 96 + 1 by norm_num,
    tstep4,
    show (96 : ℕ) = 95 + 1 by norm_num,
    tstep5,
    show (95 : ℕ) = 94 + 1 by norm_num,
    tstep6,
    show (94 : ℕ) = 93 + 1 by norm_num,
    tstep7,
    show (93 : ℕ) = 92 + 1 by norm_num,
    tstep8,
    show (92 : ℕ) = 91 + 1 by norm_num,
    tstep9,
    show (91 : ℕ) = 90 + 1 by norm_num,
    tstep10,
    show (90 : ℕ) = 89 + 1 by norm_num,
    tstep11,
    show (89 : ℕ) = 88 + 1 by norm_num,
    tstep12,
    show (88 : ℕ) = 87 + 1 by norm_num,
    tstep13,
    show (87 : ℕ) = 86 + 1 by norm_num,
    tstep14,
    show (86 : ℕ) = 85 + 1 by norm_num,
    tstep15,
    show (85 : ℕ) = 84 + 1 by norm_num,
    tstep16,
    show (84 : ℕ) = 83 + 1 by norm_num,
    tstep17,
    show (83 : ℕ) = 82 + 1 by norm_num,
    tstep18,
    show (82 : ℕ) = 81 + 1 by norm_num,
    tend]

/-- The selection fold of the rotated-box search: the result's area is a
lower bound of the initial area and of all sampled candidate areas, and the
result is the initial triple or one of the candidates. -/
theorem minAreaFold_spec (cosF sinF : ℚ → ℚ) (pts : List (ℤ × ℤ)) :
    ∀ (l : List ℚ) (init : OBB),
      (l.foldl (obbStep cosF sinF pts) init).area ≤ init.area
        ∧ (∀ t ∈ l,
            (l.foldl (obbStep cosF sinF pts) init).area ≤ (obbCand cosF sinF pts t).area)
        ∧ (l.foldl (obbStep cosF sinF pts) init = init
          ∨ ∃ t ∈ l, l.foldl (obbStep cosF sinF pts) init = obbCand cosF sinF pts t) := by
  intro l
  induction l with
  | nil => intro init; exact ⟨le_refl _, fun t ht => absurd ht (List.not_mem_nil t), Or.inl rfl⟩
  | cons x t ih =>
    intro init
    rw [List.foldl_cons]
    by_cases hx : (obbCand cosF sinF pts x).area < init.area
    · have hsx : obbStep cosF sinF pts init x = obbCand cosF sinF pts x := by
        unfold obbStep
        rw [if_pos hx]
      rw [hsx]
      have hstep := ih (obbCand cosF sinF pts x)
      refine ⟨le_trans hstep.1 (le_of_lt hx), ?_, ?_⟩
      · intro u hu
        rcases List.mem_cons.mp hu with rfl | hut
        · exact hstep.1
        · exact hstep.2.1 u hut
      · rcases hstep.2.2 with heq | ⟨u, hu, heq⟩
        · exact Or.inr ⟨x, by simp, heq⟩
        · exact Or.inr ⟨u, by simp [hu], heq⟩
    · have hsx : obbStep cosF sinF pts init x = init := by
        unfold obbStep
        rw [if_neg hx]
      rw [hsx]
      have hstep := ih init
      refine ⟨hstep.1, ?_, ?_⟩
      · intro u hu
        rcases List.mem_cons.mp hu with rfl | hut
        · exact le_trans hstep.1 (not_lt.mp hx)
        · exact hstep.2.1 u hut
      · rcases hstep.2.2 with heq | ⟨u, hu, heq⟩
        · exact Or.inl heq
        · exact Or.inr ⟨u, by simp [hu], heq⟩

/-- Claim C6 counterexample: the rotated-box search samples 18 angles, not
36 — the loop `theta = inc·PI; theta < PI/2; theta += inc·PI` with
`float` accumulation runs 18 times (17 samples near k·5° plus one float
ulp below 90°). -/
theorem claim_C6_counterexample : thetaSamplesF.length = 18 ∧ thetaSamplesF.length ≠ 36 := by
  rw [thetaSamplesF_eq]
  norm_num

/-- Claim C6 (amended): the minimal-area oriented box is computed by
exhaustively sampling rotation angles: the float32 accumulation of
`increment * PI` (increment `1/36`, i.e. 5° steps) runs the loop
eighteen times — the first seventeen samples approximate `k·5°` for
`k = 1, …, 17` and the eighteenth lands one float ulp below the `PI/2`
bound (≈ 89.99999°), so each sample is within `10⁻⁴` of `k·PI/36` for
`k = 1, …, 18`.  At each candidate angle every member pixel is rotated
about the origin, the axis-aligned extents of the rotated points are
tracked, and the candidate minimizing rotated width×height is kept
(starting from the axis-aligned box).  `cosF`/`sinF` stand for the math
library's `cos`/`sin` at the sampled float angle. -/
theorem claim_C6_amended :
    (thetaSamplesF = [5856353 / 67108864,
      5856353 / 33554432,
      4392265 / 16777216,
      11712707 / 33554432,
      3660221 / 8388608,
      4392265 / 8388608,
      5124309 / 8388608,
      5856353 / 8388608,
      6588397 / 8388608,
      7320441 / 8388608,
      8052485 / 8388608,
      8784529 / 8388608,
      9516573 / 8388608,
      10248617 / 8388608,
      10980661 / 8388608,
      11712705 / 8388608,
      12444749 / 8388608,
      13176793 / 8388608])
      ∧ (∀ t ∈ thetaSamplesF, 0 < t ∧ t < boundF)
      ∧ List.Forall₂ (fun t e => e - 1 / 10 ^ 4 < t ∧ t < e + 1 / 10 ^ 4)
          thetaSamplesF ((List.range' 1 18).map fun k : ℕ => (k : ℚ) * PId / 36)
      ∧ ∀ (cosF sinF : ℚ → ℚ) (pts : List (ℤ × ℤ)) (init : OBB),
          (minAreaOBB cosF sinF pts init).area ≤ init.area
            ∧ (∀ t ∈ thetaSamplesF,
                (minAreaOBB cosF sinF pts init).area ≤ (obbCand cosF sinF pts t).area)
            ∧ (minAreaOBB cosF sinF pts init = init
              ∨ ∃ t ∈ thetaSamplesF, minAreaOBB cosF sinF pts init = obbCand cosF sinF pts t) := by
  refine ⟨thetaSamplesF_eq, ?_, ?_, ?_⟩
  · intro t ht
    rw [thetaSamplesF_eq] at ht
    fin_cases ht <;> norm_num [flv_bound]
  · rw [thetaSamplesF_eq]
    simp only [flv_PI,
      show List.range' 1 18 = [1, 2, 3, 4, 5, 6, 7, 8, 9, 10, 11, 12, 13, 14, 15, 16, 17, 18]
        from by decide,
      List.map_cons, List.map_nil]
    norm_num [List.forall₂_cons]
  · intro cosF sinF pts init
    exact minAreaFold_spec cosF sinF pts thetaSamplesF init

/-- For positive values the ratio disjunction of the edge test is vacuous:
one of the two quotients is always `≤ 1 ≤ 3`.  So `edgeCond a b` (with the
current pixel positive) holds iff the neighbor is positive. -/
theorem edgeCond_pos {a b : ℚ} (ha : 0 < a) : edgeCond a b = true ↔ 0 < b := by
  unfold edgeCond
  rw [Bool.and_eq_true, Bool.or_eq_true]
  simp only [decide_eq_true_eq]
  constructor
  · exact fun h => h.1
  · intro hb
    refine ⟨hb, ?_⟩
    rcases le_total a b with hab | hba
    · exact Or.inl (le_trans ((div_le_one hb).mpr hab) (by norm_num))
    · exact Or.inr (le_trans ((div_le_one ha).mpr hba) (by norm_num))

/-- Claim C1 counterexample: on a 1×2 SWT map holding 10 and 1 the graph
builder adds the edge between the two pixels even though their
stroke-width ratio in one direction is 10 > 3 (the source's `||` between
the two quotient tests makes the ratio bound vacuous). -/
theorem claim_C1_counterexample :
    ((0, 0), (0, 1)) ∈ buildEdges 1 2 (fun _ c => if c = 0 then (10 : ℚ) else 1)
      ∧ (fun _ c => if c = 0 then (10 : ℚ) else 1) 0 0 = 10
      ∧ (fun _ c => if c = 0 then (10 : ℚ) else 1) 0 1 = 1
      ∧ ¬ max ((10 : ℚ) / 1) ((1 : ℚ) / 10) ≤ 3 := by
  refine ⟨?_, rfl, rfl, by norm_num⟩
  norm_num [buildEdges, edgeCond, List.range_succ]

/-- Claim C1 (amended): the graph builder adds an edge from a pixel to an
in-bounds right / right-down / down / left-down neighbor if and only if
both pixels have positive SWT values — the ratio test
`a/b ≤ 3.0 || b/a ≤ 3.0` of the source is satisfied by every pair of
positive values (one quotient is always ≤ 1), so edges are not constrained
by the stroke-width ratio. -/
theorem claim_C1_amended (h w : ℕ) (m : ℕ → ℕ → ℚ) (e : (ℕ × ℕ) × (ℕ × ℕ)) :
    e ∈ buildEdges h w m ↔ edgeSpec h w m e := by
  unfold buildEdges edgeSpec
  simp only [List.mem_flatMap, List.mem_range, mem_ite_list, List.mem_append,
    List.mem_singleton, Bool.and_eq_true, decide_eq_true_eq]
  constructor
  · rintro ⟨row, hrow, col, hcol, hpos, hmem⟩
    rcases hmem with ((⟨⟨hb, hc⟩, rfl⟩ | ⟨⟨⟨hb1, hb2⟩, hc⟩, rfl⟩) | ⟨⟨hb, hc⟩, rfl⟩)
      | ⟨⟨⟨hb1, hb2⟩, hc⟩, rfl⟩
    · exact ⟨row, col, rfl, hrow, hcol, hpos, (edgeCond_pos hpos).mp hc, Or.inl ⟨rfl, hb⟩⟩
    · exact ⟨row, col, rfl, hrow, hcol, hpos, (edgeCond_pos hpos).mp hc,
        Or.inr (Or.inl ⟨rfl, hb1, hb2⟩)⟩
    · exact ⟨row, col, rfl, hrow, hcol, hpos, (edgeCond_pos hpos).mp hc,
        Or.inr (Or.inr (Or.inl ⟨rfl, hb⟩))⟩
    · exact ⟨row, col, rfl, hrow, hcol, hpos, (edgeCond_pos hpos).mp hc,
        Or.inr (Or.inr (Or.inr ⟨col - 1, by omega, rfl, hb1⟩))⟩
  · rintro ⟨r, c, he1, hr, hc, hpos, hpos2, hnb⟩
    refine ⟨r, hr, c, hc, hpos, ?_⟩
    obtain ⟨e1, e2⟩ := e
    obtain rfl : e1 = (r, c) := he1
    rcases hnb with ⟨rfl, hb⟩ | ⟨rfl, hb1, hb2⟩ | ⟨rfl, hb⟩ | ⟨c', rfl, rfl, hb⟩
    · exact Or.inl (Or.inl (Or.inl ⟨⟨hb, (edgeCond_pos hpos).mpr hpos2⟩, rfl⟩))
    · exact Or.inl (Or.inl (Or.inr ⟨⟨⟨hb1, hb2⟩, (edgeCond_pos hpos).mpr hpos2⟩, rfl⟩))
    · exact Or.inl (Or.inr ⟨⟨hb, (edgeCond_pos hpos).mpr hpos2⟩, rfl⟩)
    · simp only [Nat.add_sub_cancel]
      exact Or.inr ⟨⟨⟨hb, by omega⟩, (edgeCond_pos hpos).mpr hpos2⟩, trivial⟩

theorem mem_vertexList (h w : ℕ) (m : ℕ → ℕ → ℚ) (p : ℕ × ℕ) :
    p ∈ vertexList h w m ↔ p.1 < h ∧ p.2 < w ∧ 0 < m p.1 p.2 := by
  unfold vertexList
  simp only [List.mem_flatMap, List.mem_map, List.mem_filter, List.mem_range,
    decide_eq_true_eq]
  constructor
  · rintro ⟨row, hrow, col, ⟨hcol, hpos⟩, rfl⟩
    exact ⟨hrow, hcol, hpos⟩
  · rintro ⟨h1, h2, h3⟩
    exact ⟨p.1, h1, p.2, ⟨h2, h3⟩, rfl⟩

theorem vertexList_nodup (h w : ℕ) (m : ℕ → ℕ → ℚ) : (vertexList h w m).Nodup := by
  unfold vertexList
  rw [List.nodup_flatMap]
  constructor
  · intro row _
    refine List.Nodup.map ?_ (((List.nodup_range w)).filter _)
    intro a b hab
    exact congrArg Prod.snd hab
  · refine ((List.pairwise_lt_range h).imp ?_)
    intro a b hab x hxa hxb
    simp only [List.mem_map, List.mem_filter] at hxa hxb
    obtain ⟨ca, _, rfl⟩ := hxa
    obtain ⟨cb, _, hcb⟩ := hxb
    exact absurd (congrArg Prod.fst hcb).symm (Nat.ne_of_lt hab)

/-- Distributing a pointwise sum over a mapped list. -/
theorem sum_map_add (l : List ℕ) (f g : ℕ → ℕ) :
    (l.map fun k => f k + g k).sum = (l.map f).sum + (l.map g).sum := by
  induction l with
  | nil => simp
  | cons x t ih => simp [ih]; omega

/-- Summing the indicator of one value over `range nc`. -/
theorem sum_map_indicator (nc K : ℕ) :
    ((List.range nc).map fun k => if K = k then 1 else 0).sum = if K < nc then 1 else 0 := by
  induction nc with
  | zero => simp
  | succ n ih =>
    rw [List.range_succ, List.map_append, List.sum_append, ih]
    by_cases hK : K < n
    · have : K ≠ n := by omega
      simp [hK, this, Nat.lt_succ_of_lt hK]
    · by_cases hKn : K = n
      · subst hKn
        simp [hK]
      · have : ¬ K < n + 1 := by omega
        simp [hK, hKn, this]

/-- `countP` distributes over `flatten` as the sum of per-list counts. -/
theorem countP_flatten {α : Type} (pr : α → Bool) :
    ∀ (L : List (List α)), L.flatten.countP pr = (L.map fun l => l.countP pr).sum := by
  intro L
  induction L with
  | nil => simp
  | cons x t ih => simp [List.countP_append, ih]

/-- An element of a duplicate-free list occurs exactly once. -/
theorem countP_eq_one_of_nodup_mem {α : Type} [DecidableEq α] :
    ∀ (l : List α), l.Nodup → ∀ (p : α), p ∈ l →
      (l.countP fun q => decide (q = p)) = 1 := by
  intro l
  induction l with
  | nil => intro _ p hp; exact absurd hp (List.not_mem_nil p)
  | cons x t ih =>
    intro hnd p hp
    rw [List.countP_cons]
    by_cases hx : x = p
    · subst hx
      have hnt : x ∉ t := (List.nodup_cons.mp hnd).1
      have : (t.countP fun q => decide (q = x)) = 0 := by
        rw [List.countP_eq_zero]
        intro a ha
        simp only [decide_eq_true_eq]
        intro haq
        exact hnt (haq ▸ ha)
      simp [this]
    · have hpt : p ∈ t := by
        rcases List.mem_cons.mp hp with rfl | hpt
        · exact absurd rfl hx
        · exact hpt
      have := ih (List.nodup_cons.mp hnd).2 p hpt
      simp [hx, this]

/-- Splitting a per-pair count over the buckets of a labelling whose values
lie below `nc`. -/
theorem sum_countP_buckets (lab : ℕ → ℕ) (p : ℕ × ℕ) (nc : ℕ) :
    ∀ (L : List (ℕ × (ℕ × ℕ))), (∀ x ∈ L, lab x.1 < nc) →
      ((List.range nc).map fun k =>
          L.countP fun jp => decide (jp.2 = p) && decide (lab jp.1 = k)).sum
        = L.countP fun jp => decide (jp.2 = p) := by
  intro L
  induction L with
  | nil => simp
  | cons x t ih =>
    intro hx
    have ht := fun y hy => hx y (List.mem_cons_of_mem x hy)
    have hxN := hx x (List.mem_cons_self x t)
    simp only [List.countP_cons]
    rw [show ((List.range nc).map fun k =>
          t.countP (fun jp => decide (jp.2 = p) && decide (lab jp.1 = k))
            + if (decide (x.2 = p) && decide (lab x.1 = k)) = true then 1 else 0).sum
        = ((List.range nc).map fun k =>
            t.countP (fun jp => decide (jp.2 = p) && decide (lab jp.1 = k))).sum
          + ((List.range nc).map fun k =>
              if (decide (x.2 = p) && decide (lab x.1 = k)) = true then 1 else 0).sum
      from sum_map_add _ _ _]
    rw [ih ht]
    congr 1
    by_cases hp : x.2 = p
    · have hmap : ((List.range nc).map fun k =>
          if (decide (x.2 = p) && decide (lab x.1 = k)) = true then 1 else 0)
          = (List.range nc).map fun k => if lab x.1 = k then 1 else 0 := by
        apply List.map_congr_left
        intro k _
        by_cases hk : lab x.1 = k <;> simp [hp, hk]
      rw [hmap, sum_map_indicator, if_pos hxN, if_pos (by simp [hp])]
    · have hmap : ((List.range nc).map fun k =>
          if (decide (x.2 = p) && decide (lab x.1 = k)) = true then 1 else 0)
          = (List.range nc).map fun _ => 0 := by
        apply List.map_congr_left
        intro k _
        simp [hp]
      rw [hmap, if_neg (by simp [hp])]
      induction nc <;> simp [List.range_succ]

/-- Claim C10: for any SWT map and any total labelling into `nc` classes
(boost's `connected_components` contract), the returned component family
partitions the positive pixels: every in-grid pixel with positive value
occurs in exactly one place across all components, every other pixel in
none, and no component contains a non-positive pixel. -/
theorem claim_C10 (h w : ℕ) (m : ℕ → ℕ → ℚ) (lab : ℕ → ℕ) (nc : ℕ)
    (hlab : ∀ j < (vertexList h w m).length, lab j < nc) :
    (∀ p : ℕ × ℕ, ((componentBuckets h w m lab nc).flatten.countP fun q => decide (q = p))
        = if p.1 < h ∧ p.2 < w ∧ 0 < m p.1 p.2 then 1 else 0)
      ∧ ∀ comp ∈ componentBuckets h w m lab nc, ∀ p ∈ comp, 0 < m p.1 p.2 := by
  have henum : ∀ x ∈ (vertexList h w m).enum, lab x.1 < nc := by
    intro x hx
    rw [List.mem_enum_iff_getElem?] at hx
    exact hlab x.1 (List.getElem?_eq_some.mp hx).1
  constructor
  · intro p
    rw [countP_flatten]
    unfold componentBuckets
    rw [List.map_map]
    have hbucket : (List.range nc).map ((fun l => List.countP (fun q => decide (q = p)) l)
          ∘ fun k =>
          (((vertexList h w m).enum.filter fun jp => decide (lab jp.1 = k)).map
            fun jp => jp.2))
        = (List.range nc).map fun k =>
            (vertexList h w m).enum.countP fun jp =>
              decide (jp.2 = p) && decide (lab jp.1 = k) := by
      apply List.map_congr_left
      intro k _
      simp only [Function.comp_apply]
      rw [List.countP_map, List.countP_filter]
      rfl
    rw [hbucket, sum_countP_buckets lab p nc _ henum]
    have hm := List.countP_map (fun q : ℕ × ℕ => decide (q = p))
      (Prod.snd : ℕ × (ℕ × ℕ) → ℕ × ℕ) (vertexList h w m).enum
    rw [List.enum_map_snd] at hm
    rw [show (fun jp : ℕ × (ℕ × ℕ) => decide (jp.2 = p))
        = ((fun q : ℕ × ℕ => decide (q = p)) ∘ Prod.snd) from rfl, ← hm]
    by_cases hmem : p ∈ vertexList h w m
    · rw [if_pos ((mem_vertexList h w m p).mp hmem)]
      exact countP_eq_one_of_nodup_mem _ (vertexList_nodup h w m) p hmem
    · rw [if_neg (fun hc => hmem ((mem_vertexList h w m p).mpr hc))]
      rw [List.countP_eq_zero]
      intro a ha
      simp only [decide_eq_true_eq]
      intro haq
      exact hmem (haq ▸ ha)
  · intro comp hcomp p hp
    unfold componentBuckets at hcomp
    simp only [List.mem_map, List.mem_range] at hcomp
    obtain ⟨k, _, rfl⟩ := hcomp
    simp only [List.mem_map, List.mem_filter] at hp
    obtain ⟨jp, ⟨hjp, _⟩, rfl⟩ := hp
    have hmem : jp.2 ∈ vertexList h w m := by
      rw [List.mem_enum_iff_getElem?] at hjp
      obtain ⟨hlt, hv⟩ := List.getElem?_eq_some.mp hjp
      exact hv ▸ List.getElem_mem hlt
    exact ((mem_vertexList h w m jp.2).mp hmem).2.2

theorem claim_C10_witness :
    (∀ j < (vertexList 1 1 fun _ _ => (1 : ℚ)).length, (fun _ : ℕ => 0) j < 1)
      ∧ ((∀ p : ℕ × ℕ,
            ((componentBuckets 1 1 (fun _ _ => (1 : ℚ)) (fun _ => 0) 1).flatten.countP
                fun q => decide (q = p))
              = if p.1 < 1 ∧ p.2 < 1 ∧ 0 < (fun _ _ => (1 : ℚ)) p.1 p.2 then 1 else 0)
          ∧ ∀ comp ∈ componentBuckets 1 1 (fun _ _ => (1 : ℚ)) (fun _ => 0) 1,
              ∀ p ∈ comp, 0 < (fun _ _ => (1 : ℚ)) p.1 p.2) :=
  ⟨fun _ _ => Nat.zero_lt_one,
    claim_C10 1 1 (fun _ _ => (1 : ℚ)) (fun _ => 0) 1 (fun _ _ => Nat.zero_lt_one)⟩

/-! ### Merge-pass case analysis -/

/-- A pair step either leaves the state unchanged or performs exactly the
first-matching-branch merge and counts it. -/
theorem mergeStep_eq_or (cc : List (ℚ × ℚ)) (s : List Chain × ℕ) (i j : ℕ) :
    mergeStep cc s i j = s
      ∨ ∃ em, i ≠ j
          ∧ firstMatch (s.1.getD i defaultChain) (s.1.getD j defaultChain) = some em
          ∧ angleOK (s.1.getD i defaultChain).dir (s.1.getD j defaultChain).dir (caseSign em)
              = true
          ∧ mergeStep cc s i j
            = ((s.1.set i (mergedChain cc (s.1.getD i defaultChain)
                  (s.1.getD j defaultChain) em)).set j
                { s.1.getD j defaultChain with merged := true }, s.2 + 1) := by
  unfold mergeStep
  by_cases hg : i ≠ j ∧ (s.1.getD i defaultChain).merged = false
      ∧ (s.1.getD j defaultChain).merged = false
      ∧ sharesOneEnd (s.1.getD i defaultChain) (s.1.getD j defaultChain) = true
  · rw [if_pos hg]
    rcases hfm : firstMatch (s.1.getD i defaultChain) (s.1.getD j defaultChain) with _ | em
    · exact Or.inl rfl
    · dsimp only
      by_cases hang : angleOK (s.1.getD i defaultChain).dir (s.1.getD j defaultChain).dir
          (caseSign em) = true
      · rw [if_pos hang]
        exact Or.inr ⟨em, hg.1, rfl, hang, rfl⟩
      · rw [if_neg hang]
        exact Or.inl rfl
  · rw [if_neg hg]
    exact Or.inl rfl

theorem mergeStep_snd_mono (cc : List (ℚ × ℚ)) (s : List Chain × ℕ) (i j : ℕ) :
    s.2 ≤ (mergeStep cc s i j).2 := by
  rcases mergeStep_eq_or cc s i j with heq | ⟨em, _, _, _, heq⟩ <;> (rw [heq]; try omega)

theorem mergeStep_length (cc : List (ℚ × ℚ)) (s : List Chain × ℕ) (i j : ℕ) :
    (mergeStep cc s i j).1.length = s.1.length := by
  rcases mergeStep_eq_or cc s i j with heq | ⟨em, _, _, _, heq⟩ <;>
    (rw [heq]; try simp [List.length_set])

theorem foldPairs_snd_mono (cc : List (ℚ × ℚ)) :
    ∀ (l : List (ℕ × ℕ)) (s : List Chain × ℕ),
      s.2 ≤ (l.foldl (fun s ij => mergeStep cc s ij.1 ij.2) s).2 := by
  intro l
  induction l with
  | nil => intro s; exact le_refl _
  | cons x t ih =>
    intro s
    exact le_trans (mergeStep_snd_mono cc s x.1 x.2) (ih _)

theorem foldPairs_length (cc : List (ℚ × ℚ)) :
    ∀ (l : List (ℕ × ℕ)) (s : List Chain × ℕ),
      (l.foldl (fun s ij => mergeStep cc s ij.1 ij.2) s).1.length = s.1.length := by
  intro l
  induction l with
  | nil => intro s; rfl
  | cons x t ih =>
    intro s
    rw [List.foldl_cons, ih, mergeStep_length]

/-- If a fold over pair steps does not increase the merge counter, it is a
no-op: the state is unchanged and every visited step fixes the state. -/
theorem foldPairs_zero (cc : List (ℚ × ℚ)) :
    ∀ (l : List (ℕ × ℕ)) (s : List Chain × ℕ),
      (l.foldl (fun s ij => mergeStep cc s ij.1 ij.2) s).2 = s.2 →
        l.foldl (fun s ij => mergeStep cc s ij.1 ij.2) s = s
          ∧ ∀ ij ∈ l, mergeStep cc s ij.1 ij.2 = s := by
  intro l
  induction l with
  | nil => intro s _; exact ⟨rfl, fun ij h => absurd h (List.not_mem_nil ij)⟩
  | cons x t ih =>
    intro s hz
    rw [List.foldl_cons] at hz
    rcases mergeStep_eq_or cc s x.1 x.2 with heq | ⟨em, _, _, _, heq⟩
    · rw [List.foldl_cons, heq]
      rw [heq] at hz
      obtain ⟨h1, h2⟩ := ih s hz
      refine ⟨h1, ?_⟩
      intro ij hij
      rcases List.mem_cons.mp hij with rfl | hijt
      · exact heq
      · exact h2 ij hijt
    · exfalso
      have h1 : (mergeStep cc s x.1 x.2).2 = s.2 + 1 := by rw [heq]
      have hmono := foldPairs_snd_mono cc t (mergeStep cc s x.1 x.2)
      omega

theorem mergePass_length (cc : List (ℚ × ℚ)) (cs : List Chain) :
    (mergePass cc cs).1.length = cs.length := by
  unfold mergePass
  rw [foldPairs_length]
  simp

/-- Members of `pairList n` are exactly the in-range ordered pairs. -/
theorem mem_pairList (n : ℕ) (i j : ℕ) : (i, j) ∈ pairList n ↔ i < n ∧ j < n := by
  unfold pairList
  simp only [List.mem_flatMap, List.mem_map, List.mem_range]
  constructor
  · rintro ⟨a, ha, b, hb, heq⟩
    have h2 := Prod.ext_iff.mp heq
    simp only at h2
    obtain ⟨rfl, rfl⟩ := h2
    exact ⟨ha, hb⟩
  · rintro ⟨hi, hj⟩
    exact ⟨i, hi, j, hj, rfl⟩

/-- Through the pair fold, a positive merge counter means some chain in the
pool carries the `merged` flag. -/
theorem foldPairs_flagged (cc : List (ℚ × ℚ)) :
    ∀ (l : List (ℕ × ℕ)) (s : List Chain × ℕ),
      (∀ ij ∈ l, ij.2 < s.1.length) →
      (0 < s.2 → ∃ c ∈ s.1, c.merged = true) →
      0 < (l.foldl (fun s ij => mergeStep cc s ij.1 ij.2) s).2 →
        ∃ c ∈ (l.foldl (fun s ij => mergeStep cc s ij.1 ij.2) s).1, c.merged = true := by
  intro l
  induction l with
  | nil => intro s _ hbase hpos; exact hbase hpos
  | cons x t ih =>
    intro s hrange hbase hpos
    rw [List.foldl_cons] at hpos ⊢
    refine ih _ ?_ ?_ hpos
    · intro ij hij
      rw [mergeStep_length]
      exact hrange ij (List.mem_cons_of_mem x hij)
    · intro hpos'
      rcases mergeStep_eq_or cc s x.1 x.2 with heq | ⟨em, _, _, _, heq⟩
      · rw [heq] at hpos' ⊢
        exact hbase hpos'
      · rw [heq]
        have hx2 : x.2 < s.1.length := hrange x (List.mem_cons_self x t)
        have hx2' : x.2 < ((s.1.set x.1 (mergedChain cc (s.1.getD x.1 defaultChain)
            (s.1.getD x.2 defaultChain) em)).set x.2
            { s.1.getD x.2 defaultChain with merged := true }).length := by
          simpa [List.length_set] using hx2
        refine ⟨_, List.getElem_mem hx2', ?_⟩
        rw [List.getElem_set_self]

/-- Any pass that performs at least one merge flags at least one chain. -/
theorem mergePass_flagged (cc : List (ℚ × ℚ)) (cs : List Chain)
    (h : 0 < (mergePass cc cs).2) : ∃ c ∈ (mergePass cc cs).1, c.merged = true := by
  unfold mergePass at h ⊢
  refine foldPairs_flagged cc _ _ ?_ (by omega) h
  intro ij hij
  rcases ij with ⟨i, j⟩
  rw [List.length_map]
  exact ((mem_pairList cs.length i j).mp hij).2

/-- Claim C9's core: a pass with at least one merge strictly shrinks the
pool that the next pass sees. -/
theorem passNext_shrinks (cc : List (ℚ × ℚ)) (cs : List Chain)
    (h : 0 < (mergePass cc cs).2) : (passNext cc cs).length < cs.length := by
  unfold passNext
  rw [(List.perm_insertionSort (fun a b : Chain => b.components.length ≤ a.components.length)
    _).length_eq]
  obtain ⟨c, hc, hflag⟩ := mergePass_flagged cc cs h
  calc ((mergePass cc cs).1.filter fun c => c.merged = false).length
      < (mergePass cc cs).1.length := by
        rw [List.length_filter_lt_length_iff_exists]
        exact ⟨c, hc, by simp [hflag]⟩
    _ = cs.length := mergePass_length cc cs

/-- Fuel irrelevance: any fuel exceeding the pool size runs the loop to its
fixpoint, so the result does not depend on the fuel. -/
theorem mergeLoopAux_congr (cc : List (ℚ × ℚ)) :
    ∀ (f₁ f₂ : ℕ) (cs : List Chain), cs.length < f₁ → cs.length < f₂ →
      mergeLoopAux cc f₁ cs = mergeLoopAux cc f₂ cs := by
  intro f₁
  induction f₁ with
  | zero => intro f₂ cs h1; omega
  | succ n ih =>
    intro f₂ cs h1 h2
    rcases f₂ with _ | m
    · omega
    · show mergeLoopAux cc (n + 1) cs = mergeLoopAux cc (m + 1) cs
      unfold mergeLoopAux
      by_cases hm : 0 < (mergePass cc cs).2
      · rw [if_pos hm, if_pos hm]
        have hlt := passNext_shrinks cc cs hm
        exact ih m (passNext cc cs) (by omega) (by omega)
      · rw [if_neg hm, if_neg hm]

/-- The fuelled driver satisfies exactly the unbounded
`while (merges > 0)` recurrence: run a pass, recurse while it merged. -/
theorem mergeLoop_eq (cc : List (ℚ × ℚ)) (cs : List Chain) :
    mergeLoop cc cs =
      if 0 < (mergePass cc cs).2 then mergeLoop cc (passNext cc cs) else passNext cc cs := by
  unfold mergeLoop
  rw [show cs.length + 1 = cs.length + 1 from rfl]
  unfold mergeLoopAux
  by_cases hm : 0 < (mergePass cc cs).2
  · rw [if_pos hm, if_pos hm]
    exact mergeLoopAux_congr cc cs.length ((passNext cc cs).length + 1) (passNext cc cs)
      (passNext_shrinks cc cs hm) (by omega)
  · rw [if_neg hm, if_neg hm]

/-- Claim C9: the iterative chain-merge loop terminates on every finite
seed pool: each full pass that performs at least one merge strictly
decreases the number of chains handed to the next pass (each merge
permanently removes one chain), so after finitely many passes a pass
performs zero merges and the loop stops (`mergeLoop_eq` exhibits the
loop's recurrence; this bound is what makes it well-defined). -/
theorem claim_C9 (cc : List (ℚ × ℚ)) (cs : List Chain)
    (h : 0 < (mergePass cc cs).2) : (passNext cc cs).length < cs.length :=
  passNext_shrinks cc cs h

/-! ### Concrete evaluation of the chain pipeline on `exampleComps` -/

theorem resetFlag_mk (p q : ℕ) (comps : List ℕ) (dist : ℚ) (dir : ℚ × ℚ) (mg : Bool) :
    resetFlag ⟨p, q, comps, dist, dir, mg⟩ = ⟨p, q, comps, dist, dir, false⟩ := rfl

theorem ceil_neg10 : ⌈(-10 : ℚ)⌉ = (-10 : ℤ) := by
  rw [show ((-10 : ℚ)) = ((-10 : ℤ) : ℚ) from by norm_num, Int.ceil_intCast]

theorem ceil_neg20 : ⌈(-20 : ℚ)⌉ = (-20 : ℤ) := by
  rw [show ((-20 : ℚ)) = ((-20 : ℤ) : ℚ) from by norm_num, Int.ceil_intCast]

theorem eval_seeds : seedChains exampleComps
    = [⟨0, 1, [0, 1], 100, (-10, 0), false⟩, ⟨1, 2, [1, 2], 100, (-10, 0), false⟩] := by
  unfold seedChains
  rw [show exampleComps.length = 3 from rfl,
    show List.range 3 = [0, 1, 2] from by decide]
  simp only [exampleComps, List.flatMap_cons, List.flatMap_nil, List.filter_cons,
    List.filter_nil, decide_eq_true_eq, List.filterMap_cons, List.filterMap_nil,
    List.append_nil]
  norm_num [List.filterMap_cons, List.filterMap_nil, ratio_within, square, qtrunc,
    defaultComp, ceil_neg10, ceil_neg20]

theorem eval_sortSeeds :
    List.insertionSort (fun a b : Chain => a.dist ≤ b.dist) (seedChains exampleComps)
      = [⟨0, 1, [0, 1], 100, (-10, 0), false⟩, ⟨1, 2, [1, 2], 100, (-10, 0), false⟩] := by
  rw [eval_seeds]
  norm_num [List.insertionSort, List.orderedInsert]

theorem eval_pass1 : mergePass (exampleComps.map fun x => x.center)
    [⟨0, 1, [0, 1], 100, (-10, 0), false⟩, ⟨1, 2, [1, 2], 100, (-10, 0), false⟩]
    = ([⟨0, 2, [0, 1, 1, 2], 400, (-20, 0), false⟩, ⟨1, 2, [1, 2], 100, (-10, 0), true⟩], 1) := by
  unfold mergePass
  rw [show ([⟨0, 1, [0, 1], 100, (-10, 0), false⟩,
      (⟨1, 2, [1, 2], 100, (-10, 0), false⟩ : Chain)] : List Chain).length = 2 from rfl,
    show pairList 2 = [(0, 0), (0, 1), (1, 0), (1, 1)] from by decide]
  simp only [List.foldl_cons, List.foldl_nil, List.map_cons, List.map_nil]
  norm_num [mergeStep, resetFlag, sharesOneEnd, firstMatch, angleOK, caseSign,
    mergedChain, ctrD, defaultChain, exampleComps]

theorem eval_passNext1 : passNext (exampleComps.map fun x => x.center)
    [⟨0, 1, [0, 1], 100, (-10, 0), false⟩, ⟨1, 2, [1, 2], 100, (-10, 0), false⟩]
    = [⟨0, 2, [0, 1, 1, 2], 400, (-20, 0), false⟩] := by
  unfold passNext
  rw [eval_pass1]
  norm_num [List.insertionSort, List.orderedInsert]

theorem eval_pass2 : mergePass (exampleComps.map fun x => x.center)
    [⟨0, 2, [0, 1, 1, 2], 400, (-20, 0), false⟩]
    = ([⟨0, 2, [0, 1, 1, 2], 400, (-20, 0), false⟩], 0) := by
  unfold mergePass
  rw [show ([⟨0, 2, [0, 1, 1, 2], 400, (-20, 0), false⟩] : List Chain).length = 1 from rfl,
    show pairList 1 = [(0, 0)] from by decide]
  norm_num [mergeStep, resetFlag_mk]

theorem eval_mergeLoop : mergeLoop (exampleComps.map fun x => x.center)
    (List.insertionSort (fun a b : Chain => a.dist ≤ b.dist) (seedChains exampleComps))
    = [⟨0, 2, [0, 1, 1, 2], 400, (-20, 0), false⟩] := by
  rw [eval_sortSeeds, mergeLoop_eq, eval_pass1]
  norm_num [eval_passNext1]
  rw [mergeLoop_eq, eval_pass2]
  norm_num
  unfold passNext
  rw [eval_pass2]
  norm_num [List.insertionSort, List.orderedInsert]

theorem eval_makeChains : makeChains exampleComps = [exampleChain] := by
  unfold makeChains
  rw [eval_mergeLoop]
  unfold acceptChains exampleChain
  norm_num [List.filterMap_cons, List.filterMap_nil, List.insertionSort,
    List.orderedInsert, uniqAdj]

theorem claim_C9_witness :
    0 < (mergePass (exampleComps.map fun x => x.center)
        [⟨0, 1, [0, 1], 100, (-10, 0), false⟩, ⟨1, 2, [1, 2], 100, (-10, 0), false⟩]).2
      ∧ (passNext (exampleComps.map fun x => x.center)
          [⟨0, 1, [0, 1], 100, (-10, 0), false⟩, ⟨1, 2, [1, 2], 100, (-10, 0), false⟩]).length
        < ([⟨0, 1, [0, 1], 100, (-10, 0), false⟩,
            (⟨1, 2, [1, 2], 100, (-10, 0), false⟩ : Chain)] : List Chain).length := by
  have hpos : 0 < (mergePass (exampleComps.map fun x => x.center)
      [⟨0, 1, [0, 1], 100, (-10, 0), false⟩, ⟨1, 2, [1, 2], 100, (-10, 0), false⟩]).2 := by
    rw [eval_pass1]
    norm_num
  exact ⟨hpos, claim_C9 _ _ hpos⟩

/-! ### The angle test on degenerate and self pairs -/

theorem angleOK_zero_left (v : ℚ × ℚ) (b : Bool) : angleOK (0, 0) v b = false := by
  unfold angleOK
  cases b <;> norm_num

theorem angleOK_zero_right (u : ℚ × ℚ) (b : Bool) : angleOK u (0, 0) b = false := by
  unfold angleOK
  cases b <;> norm_num

theorem angleOK_self_neg (u : ℚ × ℚ) : angleOK u u true = false := by
  unfold angleOK
  have hd : decide (0 < u.1 * -u.1 + u.2 * -u.2) = false := by
    rw [decide_eq_false_iff_not]
    nlinarith [sq_nonneg u.1, sq_nonneg u.2]
  simp only [ite_true, hd, Bool.false_and]

theorem angleOK_neg_self (u : ℚ × ℚ) : angleOK u (-u.1, -u.2) false = false := by
  unfold angleOK
  simp only [Bool.false_eq_true, if_false]
  rw [Bool.and_eq_false_iff]
  left
  rw [decide_eq_false_iff_not]
  nlinarith [sq_nonneg u.1, sq_nonneg u.2]

/-- The direction stored in a chain with equal endpoints is the zero
vector (its normalization in the source divides 0 by 0). -/
theorem chainInv_dir_zero {cc : List (ℚ × ℚ)} {c : Chain} (h : ChainInv cc c)
    (hpq : c.p = c.q) : c.dir = (0, 0) := by
  rw [h.1, hpq]
  simp

/-- Membership in `endMatches` unfolded. -/
theorem mem_endMatches (c1 c2 : Chain) (em : EndMatch) :
    em ∈ endMatches c1 c2 ↔
      (c1.p = c2.p ∧ em = .pp) ∨ (c1.p = c2.q ∧ em = .pq)
        ∨ (c1.q = c2.p ∧ em = .qp) ∨ (c1.q = c2.q ∧ em = .qq) := by
  unfold endMatches
  simp [mem_ite_list, or_assoc]

/-- If no endpoint matches, `firstMatch` is `none`, and conversely. -/
theorem firstMatch_isSome_of_shares (c1 c2 : Chain) (h : sharesOneEnd c1 c2 = true) :
    ∃ f, firstMatch c1 c2 = some f := by
  unfold sharesOneEnd at h
  unfold firstMatch
  simp only [Bool.or_eq_true, decide_eq_true_eq] at h
  by_cases h1 : c1.p = c2.p
  · exact ⟨.pp, by rw [if_pos h1]⟩
  · by_cases h2 : c1.p = c2.q
    · exact ⟨.pq, by rw [if_neg h1, if_pos h2]⟩
    · by_cases h3 : c1.q = c2.p
      · exact ⟨.qp, by rw [if_neg h1, if_neg h2, if_pos h3]⟩
      · by_cases h4 : c1.q = c2.q
        · exact ⟨.qq, by rw [if_neg h1, if_neg h2, if_neg h3, if_pos h4]⟩
        · tauto

/-- The key fixpoint propagation: when the first matching branch's angle
test fails (or no endpoint matches), every matching branch's angle test
fails.  Branches of equal sign share the same test; a pair matching
branches of different signs forces one chain to have equal endpoints,
whose stored direction is the zero vector, on which every test fails. -/
theorem allMatches_fail (cc : List (ℚ × ℚ)) (c1 c2 : Chain)
    (h1 : ChainInv cc c1) (h2 : ChainInv cc c2)
    (h : sharesOneEnd c1 c2 = false
      ∨ ∃ f, firstMatch c1 c2 = some f
          ∧ angleOK c1.dir c2.dir (caseSign f) = false) :
    ∀ em ∈ endMatches c1 c2, angleOK c1.dir c2.dir (caseSign em) = false := by
  intro em hem
  rw [mem_endMatches] at hem
  rcases h with hns | ⟨f, hf, hfail⟩
  · exfalso
    unfold sharesOneEnd at hns
    simp only [Bool.or_eq_false_iff, decide_eq_false_iff_not] at hns
    rcases hem with ⟨he, _⟩ | ⟨he, _⟩ | ⟨he, _⟩ | ⟨he, _⟩ <;> tauto
  · -- analyze which branch `firstMatch` selected
    unfold firstMatch at hf
    by_cases e1 : c1.p = c2.p
    · rw [if_pos e1] at hf
      injection hf with hff
      subst hff
      rcases hem with ⟨_, rfl⟩ | ⟨he, rfl⟩ | ⟨he, rfl⟩ | ⟨_, rfl⟩
      · exact hfail
      · rw [chainInv_dir_zero h2 (e1.symm.trans he)]
        exact angleOK_zero_right _ _
      · rw [chainInv_dir_zero h1 (e1.trans he.symm ▸ rfl)]
        exact angleOK_zero_left _ _
      · exact hfail
    · by_cases e2 : c1.p = c2.q
      · rw [if_neg e1, if_pos e2] at hf
        injection hf with hff
        subst hff
        rcases hem with ⟨he, rfl⟩ | ⟨_, rfl⟩ | ⟨he, rfl⟩ | ⟨he, rfl⟩
        · exact absurd he e1
        · exact hfail
        · exact hfail
        · rw [chainInv_dir_zero h1 (e2.trans he.symm)]
          exact angleOK_zero_left _ _
      · by_cases e3 : c1.q = c2.p
        · rw [if_neg e1, if_neg e2, if_pos e3] at hf
          injection hf with hff
          subst hff
          rcases hem with ⟨he, rfl⟩ | ⟨he, rfl⟩ | ⟨_, rfl⟩ | ⟨he, rfl⟩
          · exact absurd he e1
          · exact absurd he e2
          · exact hfail
          · rw [chainInv_dir_zero h2 (e3.symm.trans he)]
            exact angleOK_zero_right _ _
        · by_cases e4 : c1.q = c2.q
          · rw [if_neg e1, if_neg e2, if_neg e3, if_pos e4] at hf
            injection hf with hff
            subst hff
            rcases hem with ⟨he, rfl⟩ | ⟨he, rfl⟩ | ⟨he, rfl⟩ | ⟨_, rfl⟩
            · exact absurd he e1
            · exact absurd he e2
            · exact absurd he e3
            · exact hfail
          · rw [if_neg e1, if_neg e2, if_neg e3, if_neg e4] at hf
            cases hf

/-- A chain never merges with an equal chain: every self-matching branch's
angle test fails. -/
theorem endMatches_self_fail (cc : List (ℚ × ℚ)) (c : Chain) (h : ChainInv cc c) :
    ∀ em ∈ endMatches c c, angleOK c.dir c.dir (caseSign em) = false := by
  intro em hem
  rw [mem_endMatches] at hem
  rcases hem with ⟨_, rfl⟩ | ⟨he, rfl⟩ | ⟨he, rfl⟩ | ⟨_, rfl⟩
  · exact angleOK_self_neg _
  · rw [chainInv_dir_zero h he]
    exact angleOK_zero_left _ _
  · rw [chainInv_dir_zero h he.symm]
    exact angleOK_zero_left _ _
  · exact angleOK_self_neg _

/-- The merged chain of a permitted merge keeps the invariant: its direction
is recomputed from its new endpoints, and its component set has at least 3
members — two seeds over the same component pair cannot pass the angle
test, because their stored directions are equal or opposite. -/
theorem mergedChain_inv (cc : List (ℚ × ℚ)) (ci cj : Chain)
    (hci : ChainInv cc ci) (hcj : ChainInv cc cj) (em : EndMatch)
    (hm : firstMatch ci cj = some em)
    (ha : angleOK ci.dir cj.dir (caseSign em) = true) :
    ChainInv cc (mergedChain cc ci cj em) := by
  constructor
  · cases em <;> rfl
  · left
    show 3 ≤ (ci.components ++ cj.components).toFinset.card
    rw [List.toFinset_append]
    rcases hci.2 with hbig | ⟨hseed1, hne1⟩
    · exact le_trans hbig (Finset.card_le_card Finset.subset_union_left)
    rcases hcj.2 with hbig | ⟨hseed2, hne2⟩
    · exact le_trans hbig (Finset.card_le_card Finset.subset_union_right)
    -- both are seeds
    rw [hseed1, hseed2]
    by_contra hlt
    push_neg at hlt
    have hsub : ({ci.p, ci.q} : Finset ℕ) ⊆ [ci.p, ci.q].toFinset ∪ [cj.p, cj.q].toFinset := by
      intro x hx
      simp only [List.toFinset_cons, List.toFinset_nil, insert_emptyc_eq] at *
      exact Finset.mem_union_left _ hx
    have hcard2 : ({ci.p, ci.q} : Finset ℕ).card = 2 := by
      rw [Finset.card_insert_of_not_mem (by simp [hne1]), Finset.card_singleton]
    have hcardU : ([ci.p, ci.q].toFinset ∪ [cj.p, cj.q].toFinset).card ≤ 2 := by omega
    have hequ : ({ci.p, ci.q} : Finset ℕ)
        = [ci.p, ci.q].toFinset ∪ [cj.p, cj.q].toFinset := by
      apply Finset.eq_of_subset_of_card_le hsub
      omega
    have hjp : cj.p ∈ ({ci.p, ci.q} : Finset ℕ) := by
      rw [hequ]
      simp
    have hjq : cj.q ∈ ({ci.p, ci.q} : Finset ℕ) := by
      rw [hequ]
      simp
    simp only [Finset.mem_insert, Finset.mem_singleton] at hjp hjq
    -- the two seeds cover the same pair; the angle test must have failed
    unfold firstMatch at hm
    rcases hjp with hjp | hjp
    · -- cj.p = ci.p, so cj.q = ci.q; first match is the p-p branch
      have hjq' : cj.q = ci.q := by
        rcases hjq with hjq | hjq
        · exact absurd (hjp.trans hjq.symm) hne2
        · exact hjq
      rw [if_pos hjp.symm] at hm
      injection hm with hm'
      subst hm'
      have hdj : cj.dir = ci.dir := by
        rw [hci.1, hcj.1, hjp, hjq']
      simp only [caseSign] at ha
      rw [hdj, angleOK_self_neg ci.dir] at ha
      exact Bool.false_ne_true ha
    · -- cj.p = ci.q, so cj.q = ci.p; first match is the p-q branch
      have hjq' : cj.q = ci.p := by
        rcases hjq with hjq | hjq
        · exact hjq
        · exact absurd (hjp.trans hjq.symm) hne2
      have hnpp : ¬ ci.p = cj.p := fun hcon => hne1 (hcon.trans hjp)
      rw [if_neg hnpp, if_pos hjq'.symm] at hm
      injection hm with hm'
      subst hm'
      have hdj : cj.dir = (-ci.dir.1, -ci.dir.2) := by
        rw [hci.1, hcj.1, hjp, hjq', Prod.ext_iff]
        refine ⟨?_, ?_⟩ <;> simp [neg_sub]
      simp only [caseSign] at ha
      rw [hdj, angleOK_neg_self ci.dir] at ha
      exact Bool.false_ne_true ha

/-! ### The invariant through the merge loop -/

theorem getD_mem_chain {l : List Chain} {i : ℕ} (h : i < l.length) :
    l.getD i defaultChain ∈ l := by
  rw [List.getD_eq_getElem l defaultChain h]
  exact List.getElem_mem h

theorem resetFlag_inv {cc : List (ℚ × ℚ)} {c : Chain} (h : ChainInv cc c) :
    ChainInv cc (resetFlag c) := h

theorem mergeStep_inv (cc : List (ℚ × ℚ)) (s : List Chain × ℕ) (i j : ℕ)
    (hi : i < s.1.length) (hj : j < s.1.length)
    (hinv : ∀ c ∈ s.1, ChainInv cc c) :
    ∀ c ∈ (mergeStep cc s i j).1, ChainInv cc c := by
  rcases mergeStep_eq_or cc s i j with heq | ⟨em, hij, hm, hang, heq⟩
  · rw [heq]
    exact hinv
  · rw [heq]
    intro c hc
    rcases List.mem_or_eq_of_mem_set hc with hc1 | rfl
    · rcases List.mem_or_eq_of_mem_set hc1 with hc2 | rfl
      · exact hinv c hc2
      · exact mergedChain_inv cc _ _ (hinv _ (getD_mem_chain hi)) (hinv _ (getD_mem_chain hj))
          em hm hang
    · have h : ChainInv cc (s.1.getD j defaultChain) := hinv _ (getD_mem_chain hj)
      exact h

theorem foldPairs_inv (cc : List (ℚ × ℚ)) :
    ∀ (l : List (ℕ × ℕ)) (s : List Chain × ℕ),
      (∀ ij ∈ l, ij.1 < s.1.length ∧ ij.2 < s.1.length) →
      (∀ c ∈ s.1, ChainInv cc c) →
      ∀ c ∈ (l.foldl (fun s ij => mergeStep cc s ij.1 ij.2) s).1, ChainInv cc c := by
  intro l
  induction l with
  | nil => intro s _ hinv; exact hinv
  | cons x t ih =>
    intro s hb hinv
    rw [List.foldl_cons]
    have hbx := hb x (List.mem_cons_self x t)
    refine ih _ ?_ (mergeStep_inv cc s x.1 x.2 hbx.1 hbx.2 hinv)
    intro ij hij
    rw [mergeStep_length]
    exact hb ij (List.mem_cons_of_mem x hij)

theorem mergePass_inv (cc : List (ℚ × ℚ)) (cs : List Chain)
    (hinv : ∀ c ∈ cs, ChainInv cc c) : ∀ c ∈ (mergePass cc cs).1, ChainInv cc c := by
  unfold mergePass
  refine foldPairs_inv cc _ _ ?_ ?_
  · intro ij hij
    rcases ij with ⟨i, j⟩
    have := (mem_pairList cs.length i j).mp hij
    simpa [List.length_map] using this
  · intro c hc
    rw [List.mem_map] at hc
    obtain ⟨d, hd, rfl⟩ := hc
    exact resetFlag_inv (hinv d hd)

theorem passNext_inv (cc : List (ℚ × ℚ)) (cs : List Chain)
    (hinv : ∀ c ∈ cs, ChainInv cc c) : ∀ c ∈ passNext cc cs, ChainInv cc c := by
  intro c hc
  unfold passNext at hc
  rw [(List.perm_insertionSort _ _).mem_iff, List.mem_filter] at hc
  exact mergePass_inv cc cs hinv c hc.1

theorem mergeLoopAux_inv (cc : List (ℚ × ℚ)) :
    ∀ (fuel : ℕ) (cs : List Chain), (∀ c ∈ cs, ChainInv cc c) →
      ∀ c ∈ mergeLoopAux cc fuel cs, ChainInv cc c := by
  intro fuel
  induction fuel with
  | zero => intro cs hinv; exact hinv
  | succ n ih =>
    intro cs hinv
    unfold mergeLoopAux
    by_cases hm : 0 < (mergePass cc cs).2
    · rw [if_pos hm]
      exact ih _ (passNext_inv cc cs hinv)
    · rw [if_neg hm]
      exact passNext_inv cc cs hinv

/-- When a pass performs no merge, the pool it returns is just the input
with flags reset, and every visited pair step was a no-op on that pool. -/
theorem mergePass_zero_steps (cc : List (ℚ × ℚ)) (cs : List Chain)
    (h : (mergePass cc cs).2 = 0) :
    (mergePass cc cs).1 = cs.map resetFlag
      ∧ ∀ ij ∈ pairList cs.length,
          mergeStep cc (cs.map resetFlag, 0) ij.1 ij.2 = (cs.map resetFlag, 0) := by
  unfold mergePass at h ⊢
  have hz := foldPairs_zero cc (pairList cs.length) (cs.map resetFlag, 0) h
  exact ⟨by rw [hz.1], hz.2⟩

theorem getD_merged_false {cs0 : List Chain} (hunm : ∀ c ∈ cs0, c.merged = false) (k : ℕ) :
    (cs0.getD k defaultChain).merged = false := by
  by_cases hk : k < cs0.length
  · exact hunm _ (getD_mem_chain hk)
  · rw [List.getD_eq_default _ _ (by omega)]
    rfl

/-- A pair step that leaves an all-unflagged pool unchanged has no shared
endpoint, or its first matching branch's angle test fails. -/
theorem mergeStep_noop_fail (cc : List (ℚ × ℚ)) (cs0 : List Chain) (i j : ℕ)
    (hij : i ≠ j) (hunm : ∀ c ∈ cs0, c.merged = false)
    (hnoop : mergeStep cc (cs0, 0) i j = (cs0, 0)) :
    sharesOneEnd (cs0.getD i defaultChain) (cs0.getD j defaultChain) = false
      ∨ ∃ f, firstMatch (cs0.getD i defaultChain) (cs0.getD j defaultChain) = some f
          ∧ angleOK (cs0.getD i defaultChain).dir (cs0.getD j defaultChain).dir (caseSign f)
              = false := by
  by_cases hsh : sharesOneEnd (cs0.getD i defaultChain) (cs0.getD j defaultChain) = true
  · obtain ⟨f, hf⟩ := firstMatch_isSome_of_shares _ _ hsh
    by_cases hang : angleOK (cs0.getD i defaultChain).dir (cs0.getD j defaultChain).dir
        (caseSign f) = true
    · exfalso
      have hone : (mergeStep cc (cs0, 0) i j).2 = 1 := by
        unfold mergeStep
        rw [if_pos ⟨hij, getD_merged_false hunm i, getD_merged_false hunm j, hsh⟩, hf]
        dsimp only
        rw [if_pos hang]
      have hzero : (mergeStep cc (cs0, 0) i j).2 = 0 := by rw [hnoop]
      omega
    · refine Or.inr ⟨f, hf, ?_⟩
      revert hang
      cases angleOK (cs0.getD i defaultChain).dir (cs0.getD j defaultChain).dir (caseSign f) <;>
        simp
  · refine Or.inl ?_
    revert hsh
    cases sharesOneEnd (cs0.getD i defaultChain) (cs0.getD j defaultChain) <;> simp

/-- When a pass performs no merge, the pool the loop hands on is exactly the
input with flags reset (the filter drops nothing, the stable sort permutes). -/
theorem passNext_zero_mem (cc : List (ℚ × ℚ)) (cs : List Chain)
    (h : (mergePass cc cs).2 = 0) (c : Chain) :
    c ∈ passNext cc cs ↔ c ∈ cs.map resetFlag := by
  unfold passNext
  rw [(List.perm_insertionSort _ _).mem_iff, (mergePass_zero_steps cc cs h).1, List.mem_filter]
  constructor
  · exact fun hc => hc.1
  · intro hc
    refine ⟨hc, ?_⟩
    rw [List.mem_map] at hc
    obtain ⟨d, _, rfl⟩ := hc
    simp [resetFlag]

theorem mergeLoopAux_fix (cc : List (ℚ × ℚ)) :
    ∀ (fuel : ℕ) (cs : List Chain), cs.length < fuel →
      (∀ c ∈ cs, ChainInv cc c) →
      ∀ c1 ∈ mergeLoopAux cc fuel cs, ∀ c2 ∈ mergeLoopAux cc fuel cs,
        ∀ em ∈ endMatches c1 c2, angleOK c1.dir c2.dir (caseSign em) = false := by
  intro fuel
  induction fuel with
  | zero => intro cs h1; omega
  | succ n ih =>
    intro cs hlen hinv
    unfold mergeLoopAux
    by_cases hm : 0 < (mergePass cc cs).2
    · rw [if_pos hm]
      have hlt := passNext_shrinks cc cs hm
      exact ih (passNext cc cs) (by omega) (passNext_inv cc cs hinv)
    · rw [if_neg hm]
      have hz : (mergePass cc cs).2 = 0 := by omega
      have hsteps := (mergePass_zero_steps cc cs hz).2
      intro c1 h1 c2 h2 em hem
      rw [passNext_zero_mem cc cs hz] at h1 h2
      have hinv1 : ChainInv cc c1 := by
        rw [List.mem_map] at h1
        obtain ⟨d, hd, rfl⟩ := h1
        exact resetFlag_inv (hinv d hd)
      have hinv2 : ChainInv cc c2 := by
        rw [List.mem_map] at h2
        obtain ⟨d, hd, rfl⟩ := h2
        exact resetFlag_inv (hinv d hd)
      by_cases hcc : c1 = c2
      · subst hcc
        exact endMatches_self_fail cc c1 hinv1 em hem
      · obtain ⟨i, hi, hie⟩ := List.mem_iff_getElem.mp h1
        obtain ⟨j, hj, hje⟩ := List.mem_iff_getElem.mp h2
        have hL : (cs.map resetFlag).length = cs.length := by rw [List.length_map]
        have hij : i ≠ j := by
          intro heq
          subst heq
          exact hcc (hie.symm.trans hje)
        have hnoop := hsteps (i, j)
          ((mem_pairList cs.length i j).mpr ⟨by omega, by omega⟩)
        have hunm : ∀ c ∈ cs.map resetFlag, c.merged = false := by
          intro c hc
          rw [List.mem_map] at hc
          obtain ⟨d, _, rfl⟩ := hc
          simp [resetFlag]
        have hfail := mergeStep_noop_fail cc (cs.map resetFlag) i j hij hunm hnoop
        rw [List.getD_eq_getElem _ _ hi, List.getD_eq_getElem _ _ hj, hie, hje] at hfail
        exact allMatches_fail cc c1 c2 hinv1 hinv2 hfail em hem

/-- Claim C4: at the merge fixpoint, no still-mergeable pair survives.  For
every pool of chains satisfying the loop invariant over the centers `cc`,
any two chains in the loop's output (equal or distinct), and any of the
four endpoint matchings p-p, p-q, q-p, q-q that holds between them, the
sign-corrected angle test between their direction vectors fails — i.e. the
angle is not below the π/6 merge threshold (textdetection.cpp:1164-1391). -/
theorem claim_C4 (cc : List (ℚ × ℚ)) (cs : List Chain)
    (hinv : ∀ c ∈ cs, ChainInv cc c) :
    ∀ c1 ∈ mergeLoop cc cs, ∀ c2 ∈ mergeLoop cc cs,
      ∀ em ∈ endMatches c1 c2, angleOK c1.dir c2.dir (caseSign em) = false :=
  mergeLoopAux_fix cc (cs.length + 1) cs (by omega) hinv

theorem claim_C4_witness :
    (∀ c ∈ [(⟨0, 1, [0, 1], 100, (-10, 0), false⟩ : Chain)],
        ChainInv [((0 : ℚ), (0 : ℚ)), (10, 0)] c)
      ∧ ∀ c1 ∈ mergeLoop [((0 : ℚ), (0 : ℚ)), (10, 0)]
            [(⟨0, 1, [0, 1], 100, (-10, 0), false⟩ : Chain)],
          ∀ c2 ∈ mergeLoop [((0 : ℚ), (0 : ℚ)), (10, 0)]
              [(⟨0, 1, [0, 1], 100, (-10, 0), false⟩ : Chain)],
            ∀ em ∈ endMatches c1 c2, angleOK c1.dir c2.dir (caseSign em) = false := by
  have hinv : ∀ c ∈ [(⟨0, 1, [0, 1], 100, (-10, 0), false⟩ : Chain)],
      ChainInv [((0 : ℚ), (0 : ℚ)), (10, 0)] c := by
    intro c hc
    rw [List.mem_singleton] at hc
    subst hc
    refine ⟨by norm_num [ctrD], Or.inr ⟨rfl, by norm_num⟩⟩
  exact ⟨hinv, claim_C4 _ _ hinv⟩

/-! ### Claim C3: accepted chains have ≥ 3 distinct, deduplicated components -/

theorem mem_uniqAdj (l : List ℕ) (x : ℕ) : x ∈ uniqAdj l ↔ x ∈ l := by
  induction l with
  | nil => simp [uniqAdj]
  | cons a t ih =>
    cases t with
    | nil => simp [uniqAdj]
    | cons b u =>
      show x ∈ (if a = b then uniqAdj (b :: u) else a :: uniqAdj (b :: u)) ↔ _
      by_cases hab : a = b
      · subst hab
        rw [if_pos rfl, ih]
        simp only [List.mem_cons]
        tauto
      · rw [if_neg hab]
        simp only [List.mem_cons, ih]

theorem toFinset_uniqAdj (l : List ℕ) : (uniqAdj l).toFinset = l.toFinset := by
  ext x
  simp [List.mem_toFinset, mem_uniqAdj]

/-- On a sorted list, dropping adjacent duplicates removes all duplicates:
two equal members sandwich only equal members. -/
theorem nodup_uniqAdj (l : List ℕ) (hs : List.Pairwise (fun a b : ℕ => a ≤ b) l) :
    (uniqAdj l).Nodup := by
  induction l with
  | nil => simp [uniqAdj]
  | cons a t ih =>
    cases t with
    | nil => simp [uniqAdj]
    | cons b u =>
      obtain ⟨ha, h'⟩ := List.pairwise_cons.mp hs
      show ((if a = b then uniqAdj (b :: u) else a :: uniqAdj (b :: u)) : List ℕ).Nodup
      by_cases hab : a = b
      · rw [if_pos hab]
        exact ih h'
      · rw [if_neg hab]
        refine List.nodup_cons.mpr ⟨?_, ih h'⟩
        rw [mem_uniqAdj]
        intro hmem
        rcases List.mem_cons.mp hmem with rfl | hat
        · exact hab rfl
        · obtain ⟨hb, _⟩ := List.pairwise_cons.mp h'
          exact hab (le_antisymm (ha b (List.mem_cons_self b u)) (hb a hat))

/-- The indexed center reads of the merge loop agree with the per-component
records: `ctrD` over the mapped centers is the indexed record's center
(out-of-range reads agree because the default record's center is the
default center). -/
theorem ctrD_map_center (d : List CompData) (k : ℕ) :
    ctrD (d.map fun x => x.center) k = (d.getD k defaultComp).center := by
  unfold ctrD
  by_cases hk : k < d.length
  · rw [List.getD_eq_getElem _ _ (by simpa using hk), List.getD_eq_getElem _ _ hk,
      List.getElem_map]
  · rw [List.getD_eq_default _ _ (by simpa using hk), List.getD_eq_default _ _ (by omega)]
    rfl

/-- Every seed chain satisfies the loop invariant over the centers vector. -/
theorem seedChains_inv (d : List CompData) :
    ∀ c ∈ seedChains d, ChainInv (d.map fun x => x.center) c := by
  intro c hc
  unfold seedChains at hc
  rw [List.mem_flatMap] at hc
  obtain ⟨i, hi, hc⟩ := hc
  rw [List.mem_filterMap] at hc
  obtain ⟨j, hj, hc⟩ := hc
  rw [List.mem_filter, List.mem_range] at hj
  have hij : i < j := of_decide_eq_true hj.2
  rw [Option.ite_none_right_eq_some] at hc
  obtain ⟨-, hceq⟩ := hc
  injection hceq with hceq
  subst hceq
  refine ⟨?_, Or.inr ⟨rfl, show i ≠ j by omega⟩⟩
  rw [ctrD_map_center, ctrD_map_center]

/-- The invariant holds for every chain in the merge loop's output when it
holds on the input pool. -/
theorem mergeLoop_inv (cc : List (ℚ × ℚ)) (cs : List Chain)
    (hinv : ∀ c ∈ cs, ChainInv cc c) : ∀ c ∈ mergeLoop cc cs, ChainInv cc c :=
  mergeLoopAux_inv cc (cs.length + 1) cs hinv

/-- Claim C3: after the merge fixpoint, `makeChains` discards every chain
with fewer than 3 components and deduplicates each survivor's component
list (sort + `std::unique`), so every returned chain has a duplicate-free
component list of length at least 3 — at least 3 distinct component
indices (textdetection.cpp:1393-1407; the ≥3 filter reads the raw list,
but the loop invariant shows a surviving raw list of length ≥ 3 has ≥ 3
distinct members, since seeds have exactly 2 components and every merged
chain has ≥ 3 distinct components). -/
theorem claim_C3 (d : List CompData) :
    ∀ ch ∈ makeChains d, ch.components.Nodup ∧ 3 ≤ ch.components.length := by
  intro ch hch
  unfold makeChains at hch
  have hpool : ∀ c ∈ mergeLoop (d.map fun x => x.center)
      (List.insertionSort (fun a b : Chain => a.dist ≤ b.dist) (seedChains d)),
      ChainInv (d.map fun x => x.center) c := by
    refine mergeLoop_inv _ _ ?_
    intro c hc
    rw [(List.perm_insertionSort _ _).mem_iff] at hc
    exact seedChains_inv d c hc
  unfold acceptChains at hch
  rw [List.mem_filterMap] at hch
  obtain ⟨c, hc, hch⟩ := hch
  rw [Option.ite_none_right_eq_some] at hch
  obtain ⟨hlen, hcheq⟩ := hch
  injection hcheq with hcheq
  subst hcheq
  have hinv := hpool c hc
  have hcard : 3 ≤ c.components.toFinset.card := by
    rcases hinv.2 with hbig | ⟨hseed, -⟩
    · exact hbig
    · rw [hseed] at hlen
      simp at hlen
  have hsorted : List.Pairwise (fun a b : ℕ => a ≤ b)
      (List.insertionSort (fun a b : ℕ => a ≤ b) c.components) :=
    List.sorted_insertionSort _ _
  have hnd : (uniqAdj (List.insertionSort (fun a b : ℕ => a ≤ b) c.components)).Nodup :=
    nodup_uniqAdj _ hsorted
  refine ⟨hnd, ?_⟩
  calc 3 ≤ c.components.toFinset.card := hcard
    _ = (uniqAdj (List.insertionSort (fun a b : ℕ => a ≤ b) c.components)).toFinset.card := by
        rw [toFinset_uniqAdj,
          List.toFinset_eq_of_perm _ _ (List.perm_insertionSort _ _)]
    _ = (uniqAdj (List.insertionSort (fun a b : ℕ => a ≤ b) c.components)).length :=
        List.toFinset_card_of_nodup hnd

theorem claim_C3_witness :
    exampleChain ∈ makeChains exampleComps
      ∧ exampleChain.components.Nodup ∧ 3 ≤ exampleChain.components.length := by
  have hmem : exampleChain ∈ makeChains exampleComps := by
    rw [eval_makeChains]
    exact List.mem_singleton.mpr rfl
  exact ⟨hmem, claim_C3 exampleComps exampleChain hmem⟩
